import Mathlib

/-!
# Parallel range download (`Sessions/OS/Download/server.go`)

A shallow embedding of the download client: the size probe `getFileSize`,
the range planning loop of `main`, the segment fetcher `downloadPart` and the
reports printed by `main`, followed by the properties of the design document
that can be stated over them.

Conventions of the embedding.

* `int64` and `uint64` values are integers and natural numbers; every
  arithmetic operation of the source is followed by `wrap64` (`wrapU64`), the
  reduction to 64 bits.
* The output file is the list of its bytes and `WriteAt` is positional.
  `WriteAt` and `Truncate` fail on the arguments that the library or the
  system call rejects whatever the device: a negative offset or size, and a
  write that would extend the file beyond the largest `int64`. Faults of the
  device and limits of a particular file system are not modelled, and the
  failure of `os.Create` is a parameter.
* The network is a parameter: the results of `http.Head`, `http.NewRequest`
  and `client.Do`, and the sequence of results of `resp.Body.Read`.
* The goroutines of `main` run one after the other, in an order that is a
  parameter. A goroutine never reads the contents of the file, so the calls
  of `WriteAt` it makes are the same in every interleaving
  (`downloadPart_indep`); each `downloadPart` records its calls, and
  `applyWrites` replays calls in any order.
* What is printed is recorded as the list of print calls with their
  arguments.
-/

set_option autoImplicit false
set_option linter.unusedVariables false

namespace Download

/-! ## Constants of the source -/

def url : String := "http://127.0.0.1:8081/largefile.bin"

def partCount : Nat := 4

def output : String := "downloaded_file.zip"

/-! ## Machine integers -/

/-- Two's complement reduction of an integer to the range of `int64`. -/
def wrap64 (x : Int) : Int := (x + 2 ^ 63) % 2 ^ 64 - 2 ^ 63

/-- Reduction of a natural number to the range of `uint64`. -/
def wrapU64 (n : Nat) : Nat := n % 2 ^ 64

/-! ## Errors and printed reports -/

/-- The two error kinds of `strconv`: `ErrSyntax` and `ErrRange`. -/
inductive NumErrKind where
  | invalid
  | outOfRange
deriving DecidableEq, Repr

/-- Go error values: an error with a text (`errors.New`, `fmt.Errorf`, errors
of `net/http` and `os`), or a `*strconv.NumError` of `ParseInt`. -/
inductive Err where
  | errorString (text : String)
  | numError (func num : String) (kind : NumErrKind)
deriving DecidableEq, Repr

/-- An argument of a print call. -/
inductive Arg where
  | str (s : String)
  | int (n : Int)
  | err (e : Err)
deriving DecidableEq, Repr

/-- One call of `fmt.Println` or `fmt.Printf`. -/
inductive Output where
  | Println (args : List Arg)
  | Printf (format : String) (args : List Arg)
deriving DecidableEq, Repr

/-! ## The output file -/

abbrev Byte := Fin 256

abbrev File := List Byte

/-- The bytes of a file after `data` has been stored at offset `off`; a gap
between the old end of the file and `off` reads as zero bytes. -/
def writeBytes (file : File) (off : Nat) (data : List Byte) : File :=
  file.take off ++ List.replicate (off - file.length) 0 ++ data ++ file.drop (off + data.length)

/-- The largest offset of a file, and so the largest length a file can have:
file offsets are `int64`. -/
def maxOffset : Int := 2 ^ 63 - 1

/-- The method `(*os.File).WriteAt(b, off)`: a negative offset is rejected
before anything is written, and nothing is written for an empty `b`. The
system call `pwrite` rejects with `EINVAL` a write whose end does not fit in
an `int64`, that is, a write that would extend the file beyond `maxOffset`
bytes; no file is longer than that, so a write that ends inside the file is
never rejected. A limit on the length of files that a file system sets below
`maxOffset` (`EFBIG`) and faults of the device are not modelled. -/
def WriteAt (file : File) (b : List Byte) (off : Int) : Except Err File :=
  if off < 0 then .error (.errorString ("writeat " ++ output ++ ": negative offset"))
  else if b = [] then .ok file
  else if (file.length : Int) < off + b.length ∧ maxOffset < off + b.length then
    .error (.errorString ("write " ++ output ++ ": invalid argument"))
  else .ok (writeBytes file off.toNat b)

/-- The method `(*os.File).Truncate(size)`: a negative size is rejected, a
longer file is cut and a shorter one is extended with zero bytes. -/
def Truncate (file : File) (size : Int) : Except Err File :=
  if size < 0 then .error (.errorString ("truncate " ++ output ++ ": invalid argument"))
  else .ok (file.take size.toNat ++ List.replicate (size.toNat - file.length) 0)

/-! ## The network -/

/-- The results of the successive calls of `resp.Body.Read(buffer)` up to
the first one that returns an error: `more chunk rest` is a read of
`chunk` with a nil error, `eof chunk` a read of `chunk` with `io.EOF`,
`fail chunk err` a read of `chunk` with another error. A chunk may be empty
and of any length; every body is taken to end, that is, some read returns an
error. -/
inductive Body where
  | more (chunk : List Byte) (rest : Body)
  | eof (chunk : List Byte)
  | fail (chunk : List Byte) (err : Err)

/-- All the bytes a body delivers, in order. -/
def Body.bytes : Body → List Byte
  | .more chunk rest => chunk ++ rest.bytes
  | .eof chunk => chunk
  | .fail chunk _ => chunk

/-- The error that ends a body: `none` for `io.EOF`. -/
def Body.terminal : Body → Option Err
  | .more _ rest => rest.terminal
  | .eof _ => none
  | .fail _ err => some err

/-- The map `http.Header`. -/
abbrev Header := String → List String

/-- The method `Header.Get`: the first value of the key, or the empty text. -/
def Header.Get (h : Header) (key : String) : String := (h key).headD ""

/-- The fields of `http.Response` the program reads. -/
structure Response where
  StatusCode : Int
  Status : String
  Header : Header
  Body : Body

def StatusOK : Int := 200

def StatusPartialContent : Int := 206

/-- The network as one call of `downloadPart` meets it: the error of
`http.NewRequest` and the result of `client.Do` for a request with the given
`Range` header. -/
structure Net where
  NewRequest : Option Err
  Do : String → Except Err Response

/-- The surroundings of one run of `main`: the result of `http.Head(url)`,
the error of `os.Create(output)` and the network met by the goroutine of each
part. -/
structure Env where
  Head : Except Err Response
  Create : Option Err
  net : Nat → Net

/-! ## `strconv.ParseInt(s, 10, 64)` -/

/-- The digit value `ParseUint` gives a character, `none` where its switch
reaches `default`. A character beyond ASCII stands for bytes of `0x80` and
more, each of which reaches `default`. -/
def digitOf (c : Char) : Option Nat :=
  if '0'.toNat ≤ c.toNat ∧ c.toNat ≤ '9'.toNat then some (c.toNat - '0'.toNat)
  else if 'a'.toNat ≤ (c.toNat ||| 0x20) ∧ (c.toNat ||| 0x20) ≤ 'z'.toNat then
    some ((c.toNat ||| 0x20) - 'a'.toNat + 10)
  else none

/-- The constant `maxUint64`. -/
def maxUint64 : Nat := 2 ^ 64 - 1

/-- The loop of `ParseUint` for base 10 and 64 bits, from the accumulator
`n`: the parsed value and the kind of error. -/
def parseUintLoop (n : Nat) : List Char → Nat × Option NumErrKind
  | [] => (n, none)
  | c :: cs =>
    match digitOf c with
    | none => (0, some .invalid)
    | some d =>
      if d ≥ 10 then (0, some .invalid)
      else if n ≥ maxUint64 / 10 + 1 then (maxUint64, some .outOfRange)
      else
        let n10 := wrapU64 (n * 10)
        let n1 := wrapU64 (n10 + d)
        if n1 < n10 ∨ n1 > maxUint64 then (maxUint64, some .outOfRange)
        else parseUintLoop n1 cs

/-- The function `strconv.ParseUint(s, 10, 64)` on the characters of `s`. -/
def ParseUint (s : List Char) : Nat × Option NumErrKind :=
  if s = [] then (0, some .invalid) else parseUintLoop 0 s

/-- The function `strconv.ParseInt(s, 10, 64)`. -/
def ParseInt (s : String) : Int × Option Err :=
  if s = "" then (0, some (.numError "ParseInt" s .invalid))
  else
    let neg := s.data.head? = some '-'
    let rest := if s.data.head? = some '+' ∨ s.data.head? = some '-' then s.data.tail else s.data
    match ParseUint rest with
    | (_, some .invalid) => (0, some (.numError "ParseInt" s .invalid))
    | (un, _) =>
      let cutoff : Nat := 2 ^ 63
      if ¬ neg ∧ un ≥ cutoff then
        (wrap64 (cutoff - 1), some (.numError "ParseInt" s .outOfRange))
      else if neg ∧ un > cutoff then
        (wrap64 (-(cutoff : Int)), some (.numError "ParseInt" s .outOfRange))
      else
        let n := wrap64 un
        (if neg then wrap64 (-n) else n, none)

/-! ## `getFileSize` -/

/-- The function `getFileSize`, given the result of `http.Head(url)`. -/
def getFileSize (head : Except Err Response) : Int × Option Err :=
  match head with
  | .error err => (0, some err)
  | .ok resp =>
    if resp.StatusCode ≠ StatusOK then
      (0, some (.errorString ("server returned " ++ resp.Status)))
    else
      let sizeStr := resp.Header.Get "Content-Length"
      if sizeStr = "" then (0, some (.errorString "no Content-Length header"))
      else ParseInt sizeStr

/-! ## Range planning (`main`, step 3) -/

/-- One planned byte range: the arguments `start, end, partNum` handed to the
goroutine of loop iteration `partNum`. -/
structure Segment where
  partNum : Nat
  start : Int
  end_ : Int
deriving DecidableEq, Repr

/-- The value of `chunkSize := size / int64(partCount)` for `count` parts;
Go's integer division truncates toward zero. -/
def chunkSize (size : Int) (count : Nat) : Int :=
  wrap64 (Int.tdiv size (wrap64 count))

/-- The value of `start := int64(i) * chunkSize` in iteration `i`. -/
def segStart (size : Int) (count i : Nat) : Int :=
  wrap64 (wrap64 i * chunkSize size count)

/-- The value of `end` in iteration `i`: `start + chunkSize - 1`, replaced by
`size - 1` when `i == partCount-1`. -/
def segEnd (size : Int) (count i : Nat) : Int :=
  if (i : Int) = (count : Int) - 1 then wrap64 (size - 1)
  else wrap64 (wrap64 (segStart size count i + chunkSize size count) - 1)

/-- The segment launched by iteration `i` of the loop. -/
def segmentAt (size : Int) (count i : Nat) : Segment :=
  { partNum := i, start := segStart size count i, end_ := segEnd size count i }

/-- The segments launched by `for i := 0; i < partCount; i++`, in launch
order. The source fixes the count to `partCount = 4`; it is a parameter here,
and positive wherever it is used. -/
def plan (size : Int) (count : Nat) : List Segment :=
  (List.range count).map (segmentAt size count)

/-- The width `end - start + 1` of a segment. -/
def Segment.width (s : Segment) : Int := s.end_ - s.start + 1

/-- The text of `fmt.Sprintf("bytes=%d-%d", start, end)`. -/
def rangeHeader (start end_ : Int) : String :=
  "bytes=" ++ toString start ++ "-" ++ toString end_

/-! ## `downloadPart` -/

/-- What a call of `downloadPart` leaves behind: the error it returns (`none`
for nil), the file, and the calls `file.WriteAt(buffer[:n], offset)` it made,
oldest first. -/
structure PartResult where
  err : Option Err
  file : File
  writes : List (Int × List Byte)

/-- The loop `for { n, err := resp.Body.Read(buffer) ... }` of `downloadPart`
from the current `offset`. -/
def copyBody (file : File) (offset : Int) : Body → PartResult
  | .more chunk rest =>
    if 0 < chunk.length then
      match WriteAt file chunk offset with
      | .error writeErr => { err := some writeErr, file := file, writes := [(offset, chunk)] }
      | .ok file1 =>
        let r := copyBody file1 (wrap64 (offset + chunk.length)) rest
        { r with writes := (offset, chunk) :: r.writes }
    else copyBody file offset rest
  | .eof chunk =>
    if 0 < chunk.length then
      match WriteAt file chunk offset with
      | .error writeErr => { err := some writeErr, file := file, writes := [(offset, chunk)] }
      | .ok file1 => { err := none, file := file1, writes := [(offset, chunk)] }
    else { err := none, file := file, writes := [] }
  | .fail chunk err =>
    if 0 < chunk.length then
      match WriteAt file chunk offset with
      | .error writeErr => { err := some writeErr, file := file, writes := [(offset, chunk)] }
      | .ok file1 => { err := some err, file := file1, writes := [(offset, chunk)] }
    else { err := some err, file := file, writes := [] }

/-- The function `downloadPart(url, file, start, end, partNum)`. -/
def downloadPart (net : Net) (file : File) (start end_ : Int) (partNum : Nat) : PartResult :=
  match net.NewRequest with
  | some err => { err := some err, file := file, writes := [] }
  | none =>
    match net.Do (rangeHeader start end_) with
    | .error err => { err := some err, file := file, writes := [] }
    | .ok resp =>
      if resp.StatusCode ≠ StatusPartialContent ∧ resp.StatusCode ≠ StatusOK then
        { err := some (.errorString ("unexpected HTTP status: " ++ resp.Status)),
          file := file, writes := [] }
      else copyBody file start resp.Body

/-! ## `main` -/

/-- The line a goroutine prints for its part. -/
def partReport (s : Segment) : Option Err → Output
  | some err => .Printf "❌ Part %d failed: %v\n" [.int s.partNum, .err err]
  | none => .Printf "✅ Part %d downloaded [%d - %d]\n" [.int s.partNum, .int s.start, .int s.end_]

/-- The goroutines of the given segments run to completion one after the
other: the value each `downloadPart` returned, and the file at the end. -/
def runParts (net : Nat → Net) (file : File) : List Segment → List (Segment × Option Err) × File
  | [] => ([], file)
  | s :: rest =>
    let r := downloadPart (net s.partNum) file s.start s.end_ s.partNum
    let rs := runParts net r.file rest
    ((s, r.err) :: rs.1, rs.2)

/-- The file after the given calls of `WriteAt` have been made in the order of
the list, a call that fails leaving the file as it is. -/
def applyWrites (file : File) : List (Int × List Byte) → File
  | [] => file
  | (off, b) :: ws =>
    match WriteAt file b off with
    | .ok file1 => applyWrites file1 ws
    | .error _ => applyWrites file ws

/-- The function `main` for `count` parts: what it prints and the output file
it leaves (`none` when none was created). The goroutine of part `i` is the
`i`-th launched and `order` lists the parts in the order their goroutines
run; it is a permutation of `0, ..., count-1` in every run. -/
def run (count : Nat) (env : Env) (order : List Nat) : List Output × Option File :=
  match getFileSize env.Head with
  | (_, some err) => ([.Println [.str "❌ Failed to get file size:", .err err]], none)
  | (size, none) =>
    let sizeLine := Output.Printf "📦 File size: %d bytes\n" [.int size]
    match env.Create with
    | some err => ([sizeLine, .Println [.str "❌ Error creating file:", .err err]], none)
    | none =>
      match Truncate [] size with
      | .error err => ([sizeLine, .Println [.str "❌ Error resizing file:", .err err]], some [])
      | .ok file =>
        let rs := runParts env.net file (order.map (segmentAt size count))
        (sizeLine :: rs.1.map (fun r => partReport r.1 r.2) ++
          [.Println [.str "🎉 Download completed successfully!"]], some rs.2)

/-- The function `main` of the source, with its four parts. -/
def main (env : Env) (order : List Nat) : List Output × Option File :=
  run partCount env order

/-! ## Notions of the design document -/

/-- The bytes of the resource at the offsets `start, ..., end_`. -/
def slice (origin : List Byte) (start end_ : Int) : List Byte :=
  (origin.drop start.toNat).take (end_ - start + 1).toNat

/-- A decimal digit. -/
def isDecimalDigit (c : Char) : Bool := decide ('0'.toNat ≤ c.toNat ∧ c.toNat ≤ '9'.toNat)

/-- The number a sequence of decimal digits denotes, continuing from `acc`. -/
def digitsValue (acc : Nat) (ds : List Char) : Nat :=
  ds.foldl (fun a c => 10 * a + (c.toNat - '0'.toNat)) acc

/-- The number denoted by a non-empty sequence of decimal digits. -/
def naturalValue (ds : List Char) : Option Nat :=
  if ds ≠ [] ∧ ds.all isDecimalDigit then some (digitsValue 0 ds) else none

/-- The integer a text denotes in base 10: an optional sign followed by at
least one decimal digit. -/
def integerValue (s : String) : Option Int :=
  match s.data with
  | '+' :: ds => Option.map (fun v : Nat => (v : Int)) (naturalValue ds)
  | '-' :: ds => Option.map (fun v : Nat => -(v : Int)) (naturalValue ds)
  | ds => Option.map (fun v : Nat => (v : Int)) (naturalValue ds)

/-- The length a `Content-Length` text gives: its value when the text is a
base-10 integer that fits in `int64`. -/
def usableLength (s : String) : Option Int :=
  match integerValue s with
  | some z => if -(2 ^ 63) ≤ z ∧ z < 2 ^ 63 then some z else none
  | none => none

/-- The cases in which the design document lets the size probe fail: the
request fails, the status is not 200 OK, the `Content-Length` header is empty
or absent, or its text is not a usable length. -/
def SizeUnavailable (head : Except Err Response) : Prop :=
  match head with
  | .error _ => True
  | .ok resp =>
    resp.StatusCode ≠ 200 ∨ resp.Header.Get "Content-Length" = "" ∨
      usableLength (resp.Header.Get "Content-Length") = none

/-! ## Example surroundings -/

/-- A `HEAD` response with status 200 OK and the given `Content-Length`. -/
def headOK (length : String) : Except Err Response :=
  .ok { StatusCode := 200, Status := "200 OK",
        Header := fun key => if key = "Content-Length" then [length] else [],
        Body := .eof [] }

/-- A network on which `client.Do` answers every request with the given
status and body. -/
def answer (code : Int) (status : String) (body : Body) : Net :=
  { NewRequest := none,
    Do := fun _ => .ok { StatusCode := code, Status := status, Header := fun _ => [],
                         Body := body } }

/-- An origin that answers part `i` of `count` with partial content: the
bytes of its range, delivered in two reads of which the first has at most
`first` bytes. -/
def rangeNet (origin : List Byte) (count first i : Nat) : Net :=
  answer 206 "206 Partial Content"
    (.more ((slice origin (segStart origin.length count i) (segEnd origin.length count i)).take first)
      (.eof ((slice origin (segStart origin.length count i)
        (segEnd origin.length count i)).drop first)))

/-- A resource of 1000 bytes. -/
def resource1000 : List Byte := (List.range 1000).map (fun i => Fin.ofNat i)

/-- A run in which the origin serves `resource1000` and honours every
range. -/
def env1000 : Env :=
  { Head := headOK "1000", Create := none, net := rangeNet resource1000 4 100 }

/-- A resource of 10 bytes. -/
def resource10 : List Byte := [10, 11, 12, 13, 14, 15, 16, 17, 18, 19]

/-- A run in which the origin serves `resource10` and honours every range
but that of part 1, which it answers with status 500. -/
def envFailing : Env :=
  { Head := headOK "10", Create := none,
    net := fun i =>
      if i = 1 then answer 500 "500 Internal Server Error" (.eof [])
      else rangeNet resource10 4 1 i }

/-- An origin that ignores the `Range` header and answers with status 200 and
the whole of `resource10`. -/
def fullContentNet : Net :=
  answer 200 "200 OK" (.more [10, 11, 12, 13, 14, 15] (.eof [16, 17, 18, 19]))

/-- An origin that answers with partial content of two bytes only. -/
def shortNet : Net := answer 206 "206 Partial Content" (.eof [12, 13])

/-- An origin whose body delivers two bytes in two reads and then fails. -/
def brokenNet : Net :=
  answer 206 "206 Partial Content"
    (.more [12] (.fail [13] (.errorString "unexpected EOF")))

/-- An origin that answers with status 404. -/
def notFoundNet : Net := answer 404 "404 Not Found" (.eof [])

/-! ## Machine arithmetic and positional writes -/

theorem wrap64_eq_self {x : Int} (h1 : -(2 ^ 63) ≤ x) (h2 : x < 2 ^ 63) : wrap64 x = x := by
  unfold wrap64
  rw [Int.emod_eq_of_lt (by omega) (by omega)]
  omega

theorem length_writeBytes (file : File) (off : Nat) (data : List Byte) :
    (writeBytes file off data).length = max file.length (off + data.length) := by
  simp only [writeBytes, List.length_append, List.length_take, List.length_replicate,
    List.length_drop]
  omega

theorem getElem?_writeBytes (file : File) (off : Nat) (data : List Byte) (i : Nat) :
    (writeBytes file off data)[i]? =
      if i < off then (if i < file.length then file[i]? else some 0)
      else if i < off + data.length then data[i - off]? else file[i]? := by
  have hlen : (List.take off file ++ List.replicate (off - file.length) (0 : Byte)).length = off := by
    simp only [List.length_append, List.length_take, List.length_replicate]; omega
  unfold writeBytes
  by_cases h1 : i < off
  · rw [if_pos h1, List.append_assoc, List.getElem?_append_left (by omega)]
    by_cases h2 : i < file.length
    · rw [if_pos h2, List.getElem?_append_left (by simp; omega), List.getElem?_take_of_lt h1]
    · rw [if_neg h2, List.getElem?_append_right (by simp; omega)]
      rw [List.getElem?_replicate, if_pos (by simp; omega)]
  · rw [if_neg h1, List.append_assoc, List.getElem?_append_right (by omega), hlen]
    by_cases h3 : i < off + data.length
    · rw [if_pos h3, List.getElem?_append_left (by omega)]
    · rw [if_neg h3, List.getElem?_append_right (by omega), List.getElem?_drop]
      congr 1
      omega

theorem writeBytes_writeBytes (file : File) (off : Nat) (a b : List Byte) :
    writeBytes (writeBytes file off a) (off + a.length) b = writeBytes file off (a ++ b) := by
  apply List.ext_getElem?
  intro i
  simp only [getElem?_writeBytes, length_writeBytes, List.length_append, List.getElem?_append]
  split_ifs <;> first | rfl | omega | (congr 1; omega)

theorem le_length_writeBytes (file : File) (off : Nat) (data : List Byte) :
    file.length ≤ (writeBytes file off data).length := by
  rw [length_writeBytes]
  omega

/-- A write of bytes at a non-negative offset succeeds when it ends inside the
file or at an offset that fits in an `int64`. -/
theorem WriteAt_ok (file : File) {b : List Byte} {off : Int} (h0 : 0 ≤ off) (hb : b ≠ [])
    (hfit : off + b.length ≤ max (file.length : Int) (2 ^ 63 - 1)) :
    WriteAt file b off = .ok (writeBytes file off.toNat b) := by
  unfold WriteAt maxOffset
  rw [if_neg (by omega), if_neg hb, if_neg (by omega)]

theorem length_pos_of_ne_nil {chunk : List Byte} (h : chunk ≠ []) : 0 < chunk.length :=
  List.length_pos.2 h

/-- A body that delivers no byte makes no call of `WriteAt`. -/
theorem copyBody_of_bytes_nil (file : File) (offset : Int) (body : Body)
    (h : body.bytes = []) :
    (copyBody file offset body).err = body.terminal ∧
    (copyBody file offset body).file = file ∧
    (copyBody file offset body).writes = [] := by
  induction body with
  | more chunk rest ih =>
    simp only [Body.bytes, List.append_eq_nil] at h
    simp only [copyBody, h.1, List.length_nil, lt_irrefl, if_false, Body.terminal]
    exact ih h.2
  | eof chunk =>
    simp only [Body.bytes] at h
    simp [copyBody, h, Body.terminal]
  | fail chunk err =>
    simp only [Body.bytes] at h
    simp [copyBody, h, Body.terminal]

/-- The loop stores the delivered bytes, in order, from `offset` on, and
returns the error that ended the body. -/
theorem copyBody_spec (body : Body) (file : File) (offset : Int) (h0 : 0 ≤ offset)
    (h1 : offset + body.bytes.length ≤ 2 ^ 63)
    (hfit : offset + body.bytes.length ≤ max (file.length : Int) (2 ^ 63 - 1))
    (hne : body.bytes ≠ []) :
    (copyBody file offset body).err = body.terminal ∧
    (copyBody file offset body).file = writeBytes file offset.toNat body.bytes := by
  induction body generalizing file offset with
  | more chunk rest ih =>
    simp only [Body.bytes, List.length_append, Nat.cast_add] at h1 hfit
    by_cases hc : chunk = []
    · subst hc
      simp only [Body.bytes, List.nil_append] at hne
      simp only [List.length_nil, Nat.cast_zero, zero_add] at h1 hfit
      simp only [copyBody, List.length_nil, lt_irrefl, if_false, Body.terminal, Body.bytes,
        List.nil_append]
      exact ih file offset h0 h1 hfit hne
    · have hpos := length_pos_of_ne_nil hc
      simp only [copyBody, hpos, if_true,
        WriteAt_ok file h0 hc (by omega), Body.terminal, Body.bytes]
      by_cases hr : rest.bytes = []
      · have hnil := copyBody_of_bytes_nil (writeBytes file offset.toNat chunk)
          (wrap64 (offset + chunk.length)) rest hr
        rw [hnil.1, hnil.2.1, hr, List.append_nil]
        exact ⟨rfl, rfl⟩
      · have hrpos : 0 < rest.bytes.length := length_pos_of_ne_nil hr
        have hw : wrap64 (offset + chunk.length) = offset + chunk.length :=
          wrap64_eq_self (by omega) (by omega)
        have hih := ih (writeBytes file offset.toNat chunk) (offset + chunk.length)
          (by omega) (by omega)
          (by have := le_length_writeBytes file offset.toNat chunk; omega) hr
        rw [hw, hih.1, hih.2]
        refine ⟨rfl, ?_⟩
        have ht : (offset + (chunk.length : Int)).toNat = offset.toNat + chunk.length := by
          omega
        rw [ht, writeBytes_writeBytes]
  | eof chunk =>
    simp only [Body.bytes] at hfit
    simp only [Body.bytes] at hne
    have hpos := length_pos_of_ne_nil hne
    simp only [copyBody, hpos, if_true,
      WriteAt_ok file h0 hne (by omega), Body.terminal, Body.bytes]
    exact ⟨trivial, trivial⟩
  | fail chunk err =>
    simp only [Body.bytes] at hfit
    simp only [Body.bytes] at hne
    have hpos := length_pos_of_ne_nil hne
    simp only [copyBody, hpos, if_true,
      WriteAt_ok file h0 hne (by omega), Body.terminal, Body.bytes]
    exact ⟨trivial, trivial⟩

/-- Every call of `WriteAt` made by the loop lies between `offset` and
`offset` plus the number of bytes the body delivers. -/
theorem copyBody_writes (body : Body) (file : File) (offset : Int) (h0 : 0 ≤ offset)
    (h1 : offset + body.bytes.length ≤ 2 ^ 63)
    (hfit : offset + body.bytes.length ≤ max (file.length : Int) (2 ^ 63 - 1)) :
    ∀ w ∈ (copyBody file offset body).writes,
      offset ≤ w.1 ∧ w.1 + w.2.length ≤ offset + body.bytes.length := by
  induction body generalizing file offset with
  | more chunk rest ih =>
    simp only [Body.bytes, List.length_append, Nat.cast_add] at h1 hfit
    by_cases hc : chunk = []
    · subst hc
      simp only [List.length_nil, Nat.cast_zero, zero_add] at h1 hfit
      simp only [copyBody, List.length_nil, lt_irrefl, if_false, Body.bytes, List.nil_append]
      exact ih file offset h0 h1 hfit
    · have hpos := length_pos_of_ne_nil hc
      simp only [copyBody, hpos, if_true,
        WriteAt_ok file h0 hc (by omega), Body.bytes, List.length_append,
        Nat.cast_add, List.mem_cons]
      intro w hw
      rcases hw with rfl | hw
      · constructor <;> simp
      · by_cases hr : rest.bytes = []
        · have hnil := copyBody_of_bytes_nil (writeBytes file offset.toNat chunk)
            (wrap64 (offset + chunk.length)) rest hr
          rw [hnil.2.2] at hw
          cases hw
        · have hrpos : 0 < rest.bytes.length := length_pos_of_ne_nil hr
          have hwr : wrap64 (offset + chunk.length) = offset + chunk.length :=
            wrap64_eq_self (by omega) (by omega)
          rw [hwr] at hw
          have := ih (writeBytes file offset.toNat chunk) (offset + chunk.length)
            (by omega) (by omega)
            (by have := le_length_writeBytes file offset.toNat chunk; omega) w hw
          omega
  | eof chunk =>
    simp only [Body.bytes] at hfit
    by_cases hc : chunk = []
    · subst hc; simp [copyBody]
    · have hpos := length_pos_of_ne_nil hc
      simp only [copyBody, hpos, if_true,
        WriteAt_ok file h0 hc (by omega), Body.bytes, List.mem_singleton]
      rintro w rfl
      constructor <;> simp
  | fail chunk err =>
    simp only [Body.bytes] at hfit
    by_cases hc : chunk = []
    · subst hc; simp [copyBody]
    · have hpos := length_pos_of_ne_nil hc
      simp only [copyBody, hpos, if_true,
        WriteAt_ok file h0 hc (by omega), Body.bytes, List.mem_singleton]
      rintro w rfl
      constructor <;> simp


/-- The calls of `WriteAt` made by the loop carry the delivered bytes in
order, and each call is made at `offset` plus the number of bytes of the
calls before it. -/
theorem copyBody_log (body : Body) (file : File) (offset : Int) (h0 : 0 ≤ offset)
    (h1 : offset + body.bytes.length ≤ 2 ^ 63)
    (hfit : offset + body.bytes.length ≤ max (file.length : Int) (2 ^ 63 - 1)) :
    ((copyBody file offset body).writes.map Prod.snd).flatten = body.bytes ∧
    ∀ (n : Nat) (w : Int × List Byte), (copyBody file offset body).writes[n]? = some w →
      w.1 = offset +
        (((copyBody file offset body).writes.take n).map (fun v => (v.2.length : Int))).sum := by
  induction body generalizing file offset with
  | more chunk rest ih =>
    simp only [Body.bytes, List.length_append, Nat.cast_add] at h1 hfit
    by_cases hc : chunk = []
    · subst hc
      simp only [List.length_nil, Nat.cast_zero, zero_add] at h1 hfit
      simp only [copyBody, List.length_nil, lt_irrefl, if_false, Body.bytes, List.nil_append]
      exact ih file offset h0 h1 hfit
    · have hpos := length_pos_of_ne_nil hc
      simp only [copyBody, hpos, if_true,
        WriteAt_ok file h0 hc (by omega), Body.bytes, List.map_cons,
        List.flatten_cons]
      by_cases hr : rest.bytes = []
      · have hnil := copyBody_of_bytes_nil (writeBytes file offset.toNat chunk)
          (wrap64 (offset + chunk.length)) rest hr
        rw [hnil.2.2, hr]
        refine ⟨rfl, ?_⟩
        intro n w hw
        cases n with
        | zero =>
          simp only [List.getElem?_cons_zero, Option.some.injEq] at hw
          subst hw
          simp
        | succ n => simp at hw
      · have hrpos : 0 < rest.bytes.length := length_pos_of_ne_nil hr
        have hwr : wrap64 (offset + chunk.length) = offset + chunk.length :=
          wrap64_eq_self (by omega) (by omega)
        rw [hwr]
        obtain ⟨ihd, iho⟩ := ih (writeBytes file offset.toNat chunk) (offset + chunk.length)
          (by omega) (by omega)
          (by have := le_length_writeBytes file offset.toNat chunk; omega)
        refine ⟨by rw [ihd], ?_⟩
        intro n w hw
        cases n with
        | zero =>
          simp only [List.getElem?_cons_zero, Option.some.injEq] at hw
          subst hw
          simp
        | succ n =>
          rw [List.getElem?_cons_succ] at hw
          rw [iho n w hw, List.take_succ_cons, List.map_cons, List.sum_cons]
          ring
  | eof chunk =>
    simp only [Body.bytes] at hfit
    by_cases hc : chunk = []
    · subst hc; simp [copyBody, Body.bytes]
    · have hpos := length_pos_of_ne_nil hc
      simp only [copyBody, hpos, if_true, WriteAt_ok file h0 hc (by omega), Body.bytes]
      refine ⟨by simp, ?_⟩
      intro n w hw
      cases n with
      | zero =>
        simp only [List.getElem?_cons_zero, Option.some.injEq] at hw
        subst hw
        simp
      | succ n => simp at hw
  | fail chunk err =>
    simp only [Body.bytes] at hfit
    by_cases hc : chunk = []
    · subst hc; simp [copyBody, Body.bytes]
    · have hpos := length_pos_of_ne_nil hc
      simp only [copyBody, hpos, if_true, WriteAt_ok file h0 hc (by omega), Body.bytes]
      refine ⟨by simp, ?_⟩
      intro n w hw
      cases n with
      | zero =>
        simp only [List.getElem?_cons_zero, Option.some.injEq] at hw
        subst hw
        simp
      | succ n => simp at hw

/-! ## `ParseInt` -/

theorem digitOf_of_digit {c : Char} (h : isDecimalDigit c = true) :
    digitOf c = some (c.toNat - '0'.toNat) ∧ c.toNat - '0'.toNat < 10 := by
  simp only [isDecimalDigit, decide_eq_true_eq] at h
  have h0 : '0'.toNat = 48 := by decide
  have h9 : '9'.toNat = 57 := by decide
  unfold digitOf
  rw [if_pos h]
  exact ⟨rfl, by omega⟩

theorem digitOf_of_not_digit {c : Char} (h : isDecimalDigit c = false) :
    digitOf c = none ∨ ∃ d, digitOf c = some d ∧ 10 ≤ d := by
  simp only [isDecimalDigit, decide_eq_false_iff_not] at h
  unfold digitOf
  rw [if_neg h]
  by_cases h2 : 'a'.toNat ≤ (c.toNat ||| 0x20) ∧ (c.toNat ||| 0x20) ≤ 'z'.toNat
  · rw [if_pos h2]
    exact Or.inr ⟨_, rfl, by omega⟩
  · rw [if_neg h2]
    exact Or.inl rfl

theorem le_digitsValue (ds : List Char) (acc : Nat) : acc ≤ digitsValue acc ds := by
  induction ds generalizing acc with
  | nil => exact le_refl _
  | cons c cs ih =>
    have := ih (10 * acc + (c.toNat - '0'.toNat))
    simp only [digitsValue, List.foldl_cons] at this ⊢
    omega

/-- On decimal digits the loop of `ParseUint` computes the denoted number,
and reports a range error exactly when that number does not fit in 64
bits. -/
theorem parseUintLoop_digits (ds : List Char) (n : Nat) (hn : n < 2 ^ 64)
    (hd : ds.all isDecimalDigit = true) :
    parseUintLoop n ds =
      if digitsValue n ds < 2 ^ 64 then (digitsValue n ds, none)
      else (maxUint64, some .outOfRange) := by
  induction ds generalizing n with
  | nil =>
    simp only [parseUintLoop, digitsValue, List.foldl_nil]
    rw [if_pos hn]
  | cons c cs ih =>
    simp only [List.all_cons, Bool.and_eq_true] at hd
    obtain ⟨hdig, hlt⟩ := digitOf_of_digit hd.1
    have hmono := le_digitsValue cs (10 * n + (c.toNat - '0'.toNat))
    have hstep : digitsValue n (c :: cs) = digitsValue (10 * n + (c.toNat - '0'.toNat)) cs := rfl
    rw [hstep]
    simp only [parseUintLoop, hdig]
    rw [if_neg (by omega)]
    by_cases hcut : n ≥ maxUint64 / 10 + 1
    · rw [if_pos hcut, if_neg]
      simp only [maxUint64] at hcut
      omega
    · rw [if_neg hcut]
      simp only [maxUint64] at hcut
      have h10 : wrapU64 (n * 10) = n * 10 := by
        unfold wrapU64; exact Nat.mod_eq_of_lt (by omega)
      simp only [h10]
      by_cases hov : n * 10 + (c.toNat - '0'.toNat) < 2 ^ 64
      · have h1 : wrapU64 (n * 10 + (c.toNat - '0'.toNat)) = n * 10 + (c.toNat - '0'.toNat) := by
          unfold wrapU64; exact Nat.mod_eq_of_lt hov
        rw [h1, if_neg (by simp only [maxUint64]; omega), ih _ hov hd.2]
        have : n * 10 + (c.toNat - '0'.toNat) = 10 * n + (c.toNat - '0'.toNat) := by omega
        rw [this]
      · have h1 : wrapU64 (n * 10 + (c.toNat - '0'.toNat)) =
            n * 10 + (c.toNat - '0'.toNat) - 2 ^ 64 := by
          unfold wrapU64
          rw [Nat.mod_eq_sub_mod (by omega), Nat.mod_eq_of_lt (by omega)]
        rw [h1, if_pos (by omega), if_neg (by omega)]

/-- On a text with a character that is no decimal digit the loop of
`ParseUint` fails. -/
theorem parseUintLoop_not_digits (ds : List Char) (n : Nat)
    (hd : ds.all isDecimalDigit = false) :
    parseUintLoop n ds = (0, some .invalid) ∨
      parseUintLoop n ds = (maxUint64, some .outOfRange) := by
  induction ds generalizing n with
  | nil => simp at hd
  | cons c cs ih =>
    simp only [List.all_cons, Bool.and_eq_false_iff] at hd
    by_cases hc : isDecimalDigit c = true
    · have hcs : cs.all isDecimalDigit = false := by
        rcases hd with h | h
        · rw [hc] at h; cases h
        · exact h
      obtain ⟨hdig, hlt⟩ := digitOf_of_digit hc
      simp only [parseUintLoop, hdig]
      rw [if_neg (by omega)]
      split_ifs
      · exact Or.inr rfl
      · exact Or.inr rfl
      · exact ih _ hcs
    · have hc2 : isDecimalDigit c = false := by simpa using hc
      rcases digitOf_of_not_digit hc2 with h | ⟨d, h, hd10⟩
      · simp only [parseUintLoop, h]; exact Or.inl trivial
      · simp only [parseUintLoop, h]
        rw [if_pos hd10]
        exact Or.inl rfl

theorem ParseUint_of_value {ds : List Char} {v : Nat} (h : naturalValue ds = some v) :
    ParseUint ds = if v < 2 ^ 64 then (v, none) else (maxUint64, some .outOfRange) := by
  unfold naturalValue at h
  split_ifs at h with hc
  simp only [Option.some.injEq] at h
  subst h
  unfold ParseUint
  rw [if_neg hc.1]
  exact parseUintLoop_digits ds 0 (by norm_num) hc.2

theorem ParseUint_of_no_value {ds : List Char} (h : naturalValue ds = none) :
    ParseUint ds = (0, some .invalid) ∨ ParseUint ds = (maxUint64, some .outOfRange) := by
  unfold naturalValue at h
  unfold ParseUint
  by_cases hnil : ds = []
  · rw [if_pos hnil]; exact Or.inl rfl
  · rw [if_neg hnil]
    apply parseUintLoop_not_digits
    by_contra hall
    rw [if_pos ⟨hnil, by simpa using hall⟩] at h
    cases h

/-- The function `ParseInt` after the sign has been picked off: `neg` tells
whether the sign was `-` and `rest` is the text after the sign. -/
theorem ParseInt_of_parts (s : String) (neg : Bool) (rest : List Char) (hs : s ≠ "")
    (hneg : decide (s.data.head? = some '-') = neg)
    (hrest : (if s.data.head? = some '+' ∨ s.data.head? = some '-' then s.data.tail
      else s.data) = rest) :
    (∀ v, naturalValue rest = some v → (if neg then v ≤ 2 ^ 63 else v < 2 ^ 63) →
      ParseInt s = ((if neg then -(v : Int) else (v : Int)), none)) ∧
    (∀ v, naturalValue rest = some v → ¬ (if neg then v ≤ 2 ^ 63 else v < 2 ^ 63) →
      (ParseInt s).2 ≠ none) ∧
    (naturalValue rest = none → (ParseInt s).2 ≠ none) := by
  refine ⟨?_, ?_, ?_⟩
  · intro v hv hlt
    have hu := ParseUint_of_value hv
    rw [if_pos (by cases neg <;> simp at hlt <;> omega)] at hu
    unfold ParseInt
    simp only [hs, if_false, hrest, hu]
    cases neg
    · simp only [Bool.false_eq_true, if_false] at hlt
      have hn : ¬ (s.data.head? = some '-') := by simpa using hneg
      simp only [hn, not_false_eq_true, true_and, false_and, if_false]
      rw [if_neg (by omega)]
      simp only [Prod.mk.injEq, and_true]
      exact wrap64_eq_self (by omega) (by omega)
    · simp only [if_true] at hlt
      have hn : s.data.head? = some '-' := by simpa using hneg
      simp only [hn, not_true_eq_false, false_and, true_and, if_false, if_true]
      rw [if_neg (by omega)]
      simp only [Prod.mk.injEq, and_true]
      by_cases hv63 : v = 2 ^ 63
      · subst hv63
        decide
      · have h1 : wrap64 (v : Int) = v := wrap64_eq_self (by omega) (by omega)
        rw [h1]
        exact wrap64_eq_self (by omega) (by omega)
  · intro v hv hlt
    have hu := ParseUint_of_value hv
    unfold ParseInt
    simp only [hs, if_false, hrest]
    by_cases h64 : v < 2 ^ 64
    · rw [if_pos h64] at hu
      simp only [hu]
      cases neg
      · simp only [Bool.false_eq_true, if_false] at hlt
        have hn : ¬ (s.data.head? = some '-') := by simpa using hneg
        simp only [hn, not_false_eq_true, true_and]
        rw [if_pos (by omega)]
        simp
      · simp only [if_true] at hlt
        have hn : s.data.head? = some '-' := by simpa using hneg
        simp only [hn, not_true_eq_false, false_and, true_and, if_false]
        rw [if_pos (by omega)]
        simp
    · rw [if_neg h64] at hu
      simp only [hu, maxUint64]
      cases neg
      · have hn : ¬ (s.data.head? = some '-') := by simpa using hneg
        simp only [hn, not_false_eq_true, true_and]
        rw [if_pos (by norm_num)]
        simp
      · have hn : s.data.head? = some '-' := by simpa using hneg
        simp only [hn, not_true_eq_false, false_and, true_and, if_false]
        rw [if_pos (by norm_num)]
        simp
  · intro hv
    unfold ParseInt
    simp only [hs, if_false, hrest]
    rcases ParseUint_of_no_value hv with hu | hu
    · simp only [hu]
      simp
    · simp only [hu, maxUint64]
      cases neg
      · have hn : ¬ (s.data.head? = some '-') := by simpa using hneg
        simp only [hn, not_false_eq_true, true_and]
        rw [if_pos (by norm_num)]
        simp
      · have hn : s.data.head? = some '-' := by simpa using hneg
        simp only [hn, not_true_eq_false, false_and, true_and, if_false]
        rw [if_pos (by norm_num)]
        simp

theorem integerValue_plus (cs : List Char) :
    integerValue ⟨'+' :: cs⟩ = Option.map (fun v : Nat => (v : Int)) (naturalValue cs) := rfl

theorem integerValue_minus (cs : List Char) :
    integerValue ⟨'-' :: cs⟩ = Option.map (fun v : Nat => -(v : Int)) (naturalValue cs) := rfl

theorem integerValue_unsigned (ds : List Char) (hp : ds.head? ≠ some '+')
    (hm : ds.head? ≠ some '-') :
    integerValue ⟨ds⟩ = Option.map (fun v : Nat => (v : Int)) (naturalValue ds) := by
  unfold integerValue
  split
  · rename_i h; simp only at h; rw [h] at hp; simp at hp
  · rename_i h; simp only at h; rw [h] at hm; simp at hm
  · rfl

/-- The function `ParseInt` returns the value of every text that is a base-10
integer fitting in `int64`, and an error for every other text. -/
theorem ParseInt_usable (s : String) :
    (∀ z, usableLength s = some z → ParseInt s = (z, none)) ∧
    (usableLength s = none → (ParseInt s).2 ≠ none) := by
  obtain ⟨data⟩ := s
  cases data with
  | nil =>
    constructor
    · intro z hz
      simp [usableLength, integerValue, naturalValue] at hz
    · intro _
      simp [ParseInt]
  | cons c cs =>
    have hs : (⟨c :: cs⟩ : String) ≠ "" := by
      intro h
      have := congrArg String.data h
      simp at this
    by_cases hplus : c = '+'
    · subst hplus
      obtain ⟨h1, h2, h3⟩ := ParseInt_of_parts ⟨'+' :: cs⟩ false cs hs (by simp) (by simp)
      unfold usableLength
      rw [integerValue_plus]
      cases hv : naturalValue cs with
      | none => simp only [Option.map_none']; exact ⟨(by intro z hz; cases hz), fun _ => h3 hv⟩
      | some v =>
        simp only [Option.map_some']
        by_cases hr : -(2 ^ 63) ≤ (v : Int) ∧ (v : Int) < 2 ^ 63
        · rw [if_pos hr]
          refine ⟨?_, by intro h; cases h⟩
          intro z hz
          simp only [Option.some.injEq] at hz
          subst hz
          have := h1 v hv (by simp only [Bool.false_eq_true, if_false]; omega)
          simpa using this
        · rw [if_neg hr]
          refine ⟨(by intro z hz; cases hz), fun _ => ?_⟩
          exact h2 v hv (by simp only [Bool.false_eq_true, if_false]; omega)
    · by_cases hminus : c = '-'
      · subst hminus
        obtain ⟨h1, h2, h3⟩ := ParseInt_of_parts ⟨'-' :: cs⟩ true cs hs (by simp) (by simp)
        unfold usableLength
        rw [integerValue_minus]
        cases hv : naturalValue cs with
        | none => simp only [Option.map_none']; exact ⟨(by intro z hz; cases hz), fun _ => h3 hv⟩
        | some v =>
          simp only [Option.map_some']
          by_cases hr : -(2 ^ 63) ≤ -(v : Int) ∧ -(v : Int) < 2 ^ 63
          · rw [if_pos hr]
            refine ⟨?_, by intro h; cases h⟩
            intro z hz
            simp only [Option.some.injEq] at hz
            subst hz
            have := h1 v hv (by simp only [if_true]; omega)
            simpa using this
          · rw [if_neg hr]
            refine ⟨(by intro z hz; cases hz), fun _ => ?_⟩
            exact h2 v hv (by simp only [if_true]; omega)
      · have hp : (c :: cs).head? ≠ some '+' := by simpa using hplus
        have hm : (c :: cs).head? ≠ some '-' := by simpa using hminus
        obtain ⟨h1, h2, h3⟩ := ParseInt_of_parts ⟨c :: cs⟩ false (c :: cs) hs
          (by simpa using hminus) (by simp [hplus, hminus])
        unfold usableLength
        rw [integerValue_unsigned _ hp hm]
        cases hv : naturalValue (c :: cs) with
        | none => simp only [Option.map_none']; exact ⟨(by intro z hz; cases hz), fun _ => h3 hv⟩
        | some v =>
          simp only [Option.map_some']
          by_cases hr : -(2 ^ 63) ≤ (v : Int) ∧ (v : Int) < 2 ^ 63
          · rw [if_pos hr]
            refine ⟨?_, by intro h; cases h⟩
            intro z hz
            simp only [Option.some.injEq] at hz
            subst hz
            have := h1 v hv (by simp only [Bool.false_eq_true, if_false]; omega)
            simpa using this
          · rw [if_neg hr]
            refine ⟨(by intro z hz; cases hz), fun _ => ?_⟩
            exact h2 v hv (by simp only [Bool.false_eq_true, if_false]; omega)


/-! ## Arithmetic of the plan -/

theorem chunkSize_eq {size : Int} {count : Nat} (h0 : 0 < count)
    (hp : (count : Int) < 2 ^ 63) (hs : 0 ≤ size) (h2 : size < 2 ^ 63) :
    chunkSize size count = size / (count : Int) := by
  have hw : wrap64 (count : Int) = count := wrap64_eq_self (by omega) (by omega)
  have hpos : (0 : Int) < count := by exact_mod_cast h0
  unfold chunkSize
  rw [hw, Int.tdiv_eq_ediv hs (by omega)]
  have hle : size / (count : Int) ≤ size := Int.ediv_le_self _ hs
  have hge : 0 ≤ size / (count : Int) := Int.ediv_nonneg hs (by omega)
  exact wrap64_eq_self (by omega) (by omega)

theorem chunk_nonneg {size : Int} {count : Nat} (hs : 0 ≤ size) :
    0 ≤ size / (count : Int) :=
  Int.ediv_nonneg hs (by omega)

/-- `i` chunks fit below `size` as long as `i ≤ count`. -/
theorem mul_chunk_le {size : Int} {count i : Nat} (h0 : 0 < count) (hs : 0 ≤ size)
    (hi : i ≤ count) : (i : Int) * (size / (count : Int)) ≤ size := by
  have hpos : (0 : Int) < count := by exact_mod_cast h0
  have h1 : (count : Int) * (size / (count : Int)) ≤ size :=
    Int.mul_ediv_self_le (by omega)
  have h2 : (i : Int) * (size / (count : Int)) ≤
      (count : Int) * (size / (count : Int)) :=
    mul_le_mul_of_nonneg_right (by exact_mod_cast hi) (chunk_nonneg hs)
  omega

theorem segStart_eq {size : Int} {count i : Nat} (h0 : 0 < count)
    (hp : (count : Int) < 2 ^ 63) (hs : 0 ≤ size) (h2 : size < 2 ^ 63)
    (hi : i < count) :
    segStart size count i = (i : Int) * (size / (count : Int)) := by
  have hw : wrap64 (i : Int) = i := wrap64_eq_self (by omega) (by omega)
  have hle := mul_chunk_le (i := i) h0 hs (by omega)
  have hge : 0 ≤ (i : Int) * (size / (count : Int)) :=
    mul_nonneg (by omega) (chunk_nonneg hs)
  unfold segStart
  rw [chunkSize_eq h0 hp hs h2, hw]
  exact wrap64_eq_self (by omega) (by omega)

theorem segEnd_eq_of_lt {size : Int} {count i : Nat} (h0 : 0 < count)
    (hp : (count : Int) < 2 ^ 63) (hs : 0 ≤ size) (h2 : size < 2 ^ 63)
    (hi : i + 1 < count) :
    segEnd size count i = ((i : Int) + 1) * (size / (count : Int)) - 1 := by
  have hle := mul_chunk_le (i := i + 1) h0 hs (by omega)
  have hge : 0 ≤ ((i : Int) + 1) * (size / (count : Int)) :=
    mul_nonneg (by omega) (chunk_nonneg hs)
  have hsum : (i : Int) * (size / (count : Int)) + size / (count : Int) =
      ((i : Int) + 1) * (size / (count : Int)) := by ring
  push_cast at hle
  have hw1 : wrap64 (((i : Int) + 1) * (size / (count : Int))) =
      ((i : Int) + 1) * (size / (count : Int)) := wrap64_eq_self (by omega) (by omega)
  have hw2 : wrap64 (((i : Int) + 1) * (size / (count : Int)) - 1) =
      ((i : Int) + 1) * (size / (count : Int)) - 1 := wrap64_eq_self (by omega) (by omega)
  unfold segEnd
  rw [if_neg (by omega), segStart_eq h0 hp hs h2 (by omega), chunkSize_eq h0 hp hs h2,
    hsum, hw1, hw2]

theorem segEnd_last {size : Int} {count i : Nat} (hs : 0 ≤ size) (h2 : size < 2 ^ 63)
    (hi : i + 1 = count) : segEnd size count i = size - 1 := by
  unfold segEnd
  rw [if_pos (by omega), wrap64_eq_self (by omega) (by omega)]

theorem plan_length (size : Int) (count : Nat) : (plan size count).length = count := by
  simp [plan]

theorem plan_getElem? (size : Int) (count i : Nat) :
    (plan size count)[i]? =
      if i < count then some (segmentAt size count i) else none := by
  unfold plan
  by_cases h : i < count
  · rw [List.getElem?_map, List.getElem?_range h, if_pos h]; rfl
  · rw [if_neg h, List.getElem?_eq_none (by simpa using h)]

theorem segStart_le_of_le {size : Int} {count i j : Nat} (h0 : 0 < count)
    (hp : (count : Int) < 2 ^ 63) (hs : 0 ≤ size) (h2 : size < 2 ^ 63)
    (hij : i ≤ j) (hj : j < count) :
    segStart size count i ≤ segStart size count j := by
  rw [segStart_eq h0 hp hs h2 (by omega), segStart_eq h0 hp hs h2 hj]
  exact mul_le_mul_of_nonneg_right (by exact_mod_cast hij) (chunk_nonneg hs)

theorem segEnd_succ {size : Int} {count i : Nat} (h0 : 0 < count)
    (hp : (count : Int) < 2 ^ 63) (hs : 0 ≤ size) (h2 : size < 2 ^ 63)
    (hi : i + 1 < count) :
    segEnd size count i + 1 = segStart size count (i + 1) := by
  rw [segEnd_eq_of_lt h0 hp hs h2 hi, segStart_eq h0 hp hs h2 hi]
  push_cast
  ring

theorem chunk_pos {size : Int} {count : Nat} (h0 : 0 < count)
    (h1 : (count : Int) ≤ size) : 1 ≤ size / (count : Int) := by
  have hpos : (0 : Int) < count := by exact_mod_cast h0
  exact (Int.le_ediv_iff_mul_le hpos).2 (by omega)

theorem segStart_le_segEnd {size : Int} {count i : Nat} (h0 : 0 < count)
    (h1 : (count : Int) ≤ size) (h2 : size < 2 ^ 63) (hi : i < count) :
    segStart size count i ≤ segEnd size count i := by
  have hp : (count : Int) < 2 ^ 63 := by omega
  have hs : (0 : Int) ≤ size := by omega
  have hc := chunk_pos h0 h1
  by_cases hl : i + 1 < count
  · rw [segEnd_eq_of_lt h0 hp hs h2 hl, segStart_eq h0 hp hs h2 hi]
    have : ((i : Int) + 1) * (size / (count : Int)) =
        (i : Int) * (size / (count : Int)) + size / (count : Int) := by ring
    omega
  · have hlast : i + 1 = count := by omega
    rw [segEnd_last hs h2 hlast, segStart_eq h0 hp hs h2 hi]
    have hle := mul_chunk_le (i := i) h0 hs (by omega)
    have hle2 := mul_chunk_le (i := i + 1) h0 hs (by omega)
    have : ((i + 1 : Nat) : Int) * (size / (count : Int)) =
        (i : Int) * (size / (count : Int)) + size / (count : Int) := by
      push_cast; ring
    omega

theorem segEnd_lt_segStart {size : Int} {count i j : Nat} (h0 : 0 < count)
    (hp : (count : Int) < 2 ^ 63) (hs : 0 ≤ size) (h2 : size < 2 ^ 63)
    (hij : i < j) (hj : j < count) :
    segEnd size count i < segStart size count j := by
  have h1 := segEnd_succ h0 hp hs h2 (i := i) (by omega)
  have h3 := segStart_le_of_le h0 hp hs h2 (i := i + 1) (j := j) (by omega) hj
  omega

theorem segEnd_le_last {size : Int} {count i : Nat} (h0 : 0 < count)
    (hp : (count : Int) < 2 ^ 63) (hs : 0 ≤ size) (h2 : size < 2 ^ 63)
    (hi : i < count) : segEnd size count i ≤ size - 1 := by
  by_cases hl : i + 1 < count
  · rw [segEnd_eq_of_lt h0 hp hs h2 hl]
    have hle := mul_chunk_le (i := i + 1) h0 hs (by omega)
    push_cast at hle
    omega
  · rw [segEnd_last hs h2 (by omega)]

theorem mem_plan {size : Int} {count : Nat} {s : Segment} :
    s ∈ plan size count ↔ ∃ i, i < count ∧ s = segmentAt size count i := by
  unfold plan
  simp only [List.mem_map, List.mem_range]
  constructor
  · rintro ⟨i, hi, rfl⟩; exact ⟨i, hi, rfl⟩
  · rintro ⟨i, hi, rfl⟩; exact ⟨i, hi, rfl⟩

/-- Every offset of the resource lies in some planned segment. -/
theorem covered {size : Int} {count : Nat} (h0 : 0 < count)
    (h1 : (count : Int) ≤ size) (h2 : size < 2 ^ 63) (x : Int) (hx0 : 0 ≤ x)
    (hx1 : x ≤ size - 1) :
    ∃ i, i < count ∧ segStart size count i ≤ x ∧ x ≤ segEnd size count i := by
  have hp : (count : Int) < 2 ^ 63 := by omega
  have hs : (0 : Int) ≤ size := by omega
  have hc := chunk_pos h0 h1
  have hcpos : (0 : Int) < size / (count : Int) := by omega
  have hq0 : 0 ≤ x / (size / (count : Int)) := Int.ediv_nonneg hx0 (by omega)
  have hlow : x / (size / (count : Int)) * (size / (count : Int)) ≤ x :=
    Int.ediv_mul_le x (by omega)
  have hhigh : x < (x / (size / (count : Int)) + 1) * (size / (count : Int)) :=
    Int.lt_ediv_add_one_mul_self x hcpos
  by_cases hq : (x / (size / (count : Int))).toNat + 1 < count
  · refine ⟨(x / (size / (count : Int))).toNat, by omega, ?_, ?_⟩
    · rw [segStart_eq h0 hp hs h2 (by omega), Int.toNat_of_nonneg hq0]
      exact hlow
    · rw [segEnd_eq_of_lt h0 hp hs h2 hq, Int.toNat_of_nonneg hq0]
      omega
  · refine ⟨count - 1, by omega, ?_, ?_⟩
    · rw [segStart_eq h0 hp hs h2 (by omega)]
      have hge : ((count - 1 : Nat) : Int) ≤ x / (size / (count : Int)) := by omega
      have := mul_le_mul_of_nonneg_right hge (le_of_lt hcpos)
      omega
    · rw [segEnd_last hs h2 (by omega)]
      exact hx1



/-! ## Effect of one part and of all parts -/

theorem downloadPart_of_accepted {net : Net} {resp : Response} (file : File) (start end_ : Int)
    (partNum : Nat) (hreq : net.NewRequest = none)
    (hdo : net.Do (rangeHeader start end_) = .ok resp)
    (hst : resp.StatusCode = StatusOK ∨ resp.StatusCode = StatusPartialContent) :
    downloadPart net file start end_ partNum = copyBody file start resp.Body := by
  unfold downloadPart
  simp only [hreq, hdo]
  rw [if_neg]
  rcases hst with h | h <;> simp [h]

theorem length_slice {origin : List Byte} {start end_ : Int} (h0 : 0 ≤ start)
    (h2 : end_ < origin.length) :
    ((slice origin start end_).length : Int) = max 0 (end_ - start + 1) := by
  simp only [slice, List.length_take, List.length_drop]
  omega

theorem getElem?_slice {origin : List Byte} {start end_ : Int} (j : Nat)
    (hj : (j : Int) < end_ - start + 1) :
    (slice origin start end_)[j]? = origin[start.toNat + j]? := by
  unfold slice
  rw [List.getElem?_take_of_lt (by omega), List.getElem?_drop]

/-- A part whose body is the requested range of the resource leaves the file
equal to the resource on its range and unchanged elsewhere. -/
theorem copyBody_slice (origin : List Byte) (body : Body) (file : File) (start end_ : Int)
    (hlen : file.length = origin.length) (h0 : 0 ≤ start) (h1 : start ≤ end_)
    (h2 : end_ < origin.length) (h3 : end_ < 2 ^ 63)
    (hbody : body.bytes = slice origin start end_) :
    (copyBody file start body).err = body.terminal ∧
    (copyBody file start body).file.length = origin.length ∧
    ∀ i : Nat, (copyBody file start body).file[i]? =
      if start ≤ i ∧ (i : Int) ≤ end_ then origin[i]? else file[i]? := by
  have hl : ((slice origin start end_).length : Int) = max 0 (end_ - start + 1) :=
    length_slice h0 h2
  rw [← hbody] at hl
  have hne : body.bytes ≠ [] := by
    intro h
    rw [h] at hl
    simp at hl
    omega
  obtain ⟨he, hf⟩ := copyBody_spec body file start h0 (by omega) (by omega) hne
  refine ⟨he, ?_, ?_⟩
  · rw [hf, length_writeBytes]; omega
  · intro i
    rw [hf, getElem?_writeBytes]
    by_cases hi1 : i < start.toNat
    · rw [if_pos hi1, if_pos (by omega), if_neg (by omega)]
    · rw [if_neg hi1]
      by_cases hi2 : i < start.toNat + body.bytes.length
      · rw [if_pos hi2, if_pos (by omega), hbody, getElem?_slice _ (by omega)]
        congr 1
        omega
      · rw [if_neg hi2, if_neg (by omega)]

/-- The effect on the file of the goroutines of `segs`, run in the order of
the list, when each of them returns nil and stores the bytes of the resource
on its range. -/
theorem runParts_spec (net : Nat → Net) (origin : List Byte) (segs : List Segment)
    (file : File) (hlen : file.length = origin.length)
    (hgood : ∀ s ∈ segs, ∀ f : File, f.length = origin.length →
      (downloadPart (net s.partNum) f s.start s.end_ s.partNum).err = none ∧
      (downloadPart (net s.partNum) f s.start s.end_ s.partNum).file.length = origin.length ∧
      ∀ i : Nat, (downloadPart (net s.partNum) f s.start s.end_ s.partNum).file[i]? =
        if s.start ≤ i ∧ (i : Int) ≤ s.end_ then origin[i]? else f[i]?) :
    (runParts net file segs).1 = segs.map (fun s => (s, none)) ∧
    (runParts net file segs).2.length = origin.length ∧
    (∀ i : Nat, (∃ s ∈ segs, s.start ≤ i ∧ (i : Int) ≤ s.end_) →
      (runParts net file segs).2[i]? = origin[i]?) ∧
    (∀ i : Nat, (¬ ∃ s ∈ segs, s.start ≤ i ∧ (i : Int) ≤ s.end_) →
      (runParts net file segs).2[i]? = file[i]?) := by
  induction segs generalizing file with
  | nil =>
    refine ⟨rfl, hlen, ?_, ?_⟩
    · rintro i ⟨s, hs, _⟩; cases hs
    · intro i _; rfl
  | cons s rest ih =>
    obtain ⟨he, hl, hget⟩ := hgood s (List.mem_cons_self _ _) file hlen
    obtain ⟨ih1, ih2, ih3, ih4⟩ := ih _ hl (fun t ht => hgood t (List.mem_cons_of_mem _ ht))
    simp only [runParts, List.map_cons]
    refine ⟨?_, ih2, ?_, ?_⟩
    · rw [he, ih1]
    · rintro i ⟨t, ht, hin⟩
      by_cases hrest : ∃ t ∈ rest, t.start ≤ i ∧ (i : Int) ≤ t.end_
      · exact ih3 i hrest
      · rw [ih4 i hrest, hget i]
        rcases List.mem_cons.1 ht with rfl | ht
        · rw [if_pos hin]
        · exact absurd ⟨t, ht, hin⟩ hrest
    · intro i hnot
      have hrest : ¬ ∃ t ∈ rest, t.start ≤ i ∧ (i : Int) ≤ t.end_ := by
        rintro ⟨t, ht, hin⟩
        exact hnot ⟨t, List.mem_cons_of_mem _ ht, hin⟩
      rw [ih4 i hrest, hget i, if_neg]
      intro hin
      exact hnot ⟨s, List.mem_cons_self _ _, hin⟩


/-- The file a call of the loop leaves is the file after its calls of
`WriteAt`. -/
theorem copyBody_file_eq_applyWrites (body : Body) (file : File) (offset : Int) :
    (copyBody file offset body).file = applyWrites file (copyBody file offset body).writes := by
  induction body generalizing file offset with
  | more chunk rest ih =>
    by_cases hc : 0 < chunk.length
    · simp only [copyBody, hc, if_true]
      cases hw : WriteAt file chunk offset with
      | error e => simp only [applyWrites, hw]
      | ok file1 => simp only [applyWrites, hw]; exact ih file1 _
    · simp only [copyBody, hc, if_false]
      exact ih file offset
  | eof chunk =>
    by_cases hc : 0 < chunk.length
    · simp only [copyBody, hc, if_true]
      cases hw : WriteAt file chunk offset with
      | error e => simp only [applyWrites, hw]
      | ok file1 => simp only [applyWrites, hw]
    · simp only [copyBody, hc, if_false, applyWrites]
  | fail chunk err =>
    by_cases hc : 0 < chunk.length
    · simp only [copyBody, hc, if_true]
      cases hw : WriteAt file chunk offset with
      | error e => simp only [applyWrites, hw]
      | ok file1 => simp only [applyWrites, hw]
    · simp only [copyBody, hc, if_false, applyWrites]

theorem WriteAt_isOk_indep (file file1 : File) (b : List Byte) (off : Int)
    (hf : (file.length : Int) ≤ 2 ^ 63 - 1) (hf1 : (file1.length : Int) ≤ 2 ^ 63 - 1) :
    (∃ e, WriteAt file b off = .error e ∧ WriteAt file1 b off = .error e) ∨
    (∃ g g1, WriteAt file b off = .ok g ∧ WriteAt file1 b off = .ok g1 ∧
      (g.length : Int) ≤ 2 ^ 63 - 1 ∧ (g1.length : Int) ≤ 2 ^ 63 - 1) := by
  unfold WriteAt maxOffset
  by_cases h : off < 0
  · rw [if_pos h, if_pos h]; exact Or.inl ⟨_, rfl, rfl⟩
  · rw [if_neg h, if_neg h]
    by_cases hb : b = []
    · rw [if_pos hb, if_pos hb]; exact Or.inr ⟨_, _, rfl, rfl, hf, hf1⟩
    · rw [if_neg hb, if_neg hb]
      by_cases hbig : (2 : Int) ^ 63 - 1 < off + b.length
      · rw [if_pos ⟨by omega, hbig⟩, if_pos ⟨by omega, hbig⟩]
        exact Or.inl ⟨_, rfl, rfl⟩
      · rw [if_neg (fun hc => hbig hc.2), if_neg (fun hc => hbig hc.2)]
        refine Or.inr ⟨_, _, rfl, rfl, ?_, ?_⟩
        · rw [length_writeBytes]; omega
        · rw [length_writeBytes]; omega

/-- The calls of `WriteAt` made by the loop and the error it returns do not
depend on the contents of the file. -/
theorem copyBody_indep (body : Body) (file file1 : File) (offset : Int)
    (hf : (file.length : Int) ≤ 2 ^ 63 - 1) (hf1 : (file1.length : Int) ≤ 2 ^ 63 - 1) :
    (copyBody file offset body).writes = (copyBody file1 offset body).writes ∧
    (copyBody file offset body).err = (copyBody file1 offset body).err := by
  induction body generalizing file file1 offset with
  | more chunk rest ih =>
    by_cases hc : 0 < chunk.length
    · simp only [copyBody, hc, if_true]
      rcases WriteAt_isOk_indep file file1 chunk offset hf hf1 with
        ⟨e, h1, h2⟩ | ⟨g, g1, h1, h2, hg, hg1⟩
      · simp only [h1, h2, and_self]
      · simp only [h1, h2]
        obtain ⟨i1, i2⟩ := ih g g1 (wrap64 (offset + chunk.length)) hg hg1
        exact ⟨by rw [i1], i2⟩
    · simp only [copyBody, hc, if_false]
      exact ih file file1 offset hf hf1
  | eof chunk =>
    by_cases hc : 0 < chunk.length
    · simp only [copyBody, hc, if_true]
      rcases WriteAt_isOk_indep file file1 chunk offset hf hf1 with
        ⟨e, h1, h2⟩ | ⟨g, g1, h1, h2, hg, hg1⟩
      · simp only [h1, h2, and_self]
      · simp only [h1, h2, and_self]
    · simp only [copyBody, hc, if_false, and_self]
  | fail chunk err =>
    by_cases hc : 0 < chunk.length
    · simp only [copyBody, hc, if_true]
      rcases WriteAt_isOk_indep file file1 chunk offset hf hf1 with
        ⟨e, h1, h2⟩ | ⟨g, g1, h1, h2, hg, hg1⟩
      · simp only [h1, h2, and_self]
      · simp only [h1, h2, and_self]
    · simp only [copyBody, hc, if_false, and_self]

/-- Each call of `WriteAt` made by the loop carries the bytes the body
delivers at the place of the call, and every delivered byte is carried by
some call. -/
theorem copyBody_calls (body : Body) (file : File) (offset : Int) (h0 : 0 ≤ offset)
    (h1 : offset + body.bytes.length ≤ 2 ^ 63)
    (hfit : offset + body.bytes.length ≤ max (file.length : Int) (2 ^ 63 - 1)) :
    (∀ w ∈ (copyBody file offset body).writes,
      offset ≤ w.1 ∧ w.2 ≠ [] ∧ w.1 + w.2.length ≤ offset + body.bytes.length ∧
      ∀ j : Nat, j < w.2.length → w.2[j]? = body.bytes[(w.1 - offset).toNat + j]?) ∧
    (∀ k : Nat, k < body.bytes.length → ∃ w ∈ (copyBody file offset body).writes,
      w.1 ≤ offset + k ∧ offset + k < w.1 + w.2.length) := by
  induction body generalizing file offset with
  | more chunk rest ih =>
    simp only [Body.bytes, List.length_append, Nat.cast_add] at h1 hfit
    by_cases hc : chunk = []
    · subst hc
      simp only [List.length_nil, Nat.cast_zero, zero_add] at h1 hfit
      simp only [copyBody, List.length_nil, lt_irrefl, if_false, Body.bytes, List.nil_append]
      exact ih file offset h0 h1 hfit
    · have hpos := length_pos_of_ne_nil hc
      simp only [copyBody, hpos, if_true,
        WriteAt_ok file h0 hc (by omega), Body.bytes, List.length_append,
        Nat.cast_add, List.mem_cons]
      by_cases hr : rest.bytes = []
      · have hnil := copyBody_of_bytes_nil (writeBytes file offset.toNat chunk)
          (wrap64 (offset + chunk.length)) rest hr
        rw [hnil.2.2, hr]
        constructor
        · rintro w (rfl | hw)
          · refine ⟨le_refl _, hc, by simp, ?_⟩
            intro j hj
            simp
          · cases hw
        · intro k hk
          simp only [List.length_nil, add_zero] at hk
          exact ⟨(offset, chunk), Or.inl rfl, by simp, by simp; omega⟩
      · have hrpos : 0 < rest.bytes.length := length_pos_of_ne_nil hr
        have hwr : wrap64 (offset + chunk.length) = offset + chunk.length :=
          wrap64_eq_self (by omega) (by omega)
        rw [hwr]
        obtain ⟨ih1, ih2⟩ := ih (writeBytes file offset.toNat chunk) (offset + chunk.length)
          (by omega) (by omega)
          (by have := le_length_writeBytes file offset.toNat chunk; omega)
        constructor
        · rintro w (rfl | hw)
          · refine ⟨le_refl _, hc, by simp, ?_⟩
            intro j hj
            simp only [sub_self, Int.toNat_zero, zero_add]
            rw [List.getElem?_append_left hj]
          · obtain ⟨a1, a2, a3, a4⟩ := ih1 w hw
            refine ⟨by omega, a2, by omega, ?_⟩
            intro j hj
            rw [a4 j hj, List.getElem?_append_right (by omega)]
            congr 1
            omega
        · intro k hk
          by_cases hk1 : k < chunk.length
          · exact ⟨(offset, chunk), Or.inl rfl, by simp, by simp; omega⟩
          · obtain ⟨w, hw, b1, b2⟩ := ih2 (k - chunk.length) (by omega)
            exact ⟨w, Or.inr hw, by omega, by omega⟩
  | eof chunk =>
    simp only [Body.bytes] at hfit
    by_cases hc : chunk = []
    · subst hc; simp [copyBody, Body.bytes]
    · have hpos := length_pos_of_ne_nil hc
      simp only [copyBody, hpos, if_true,
        WriteAt_ok file h0 hc (by omega), Body.bytes, List.mem_singleton]
      constructor
      · rintro w rfl
        exact ⟨le_refl _, hc, le_refl _, by intro j hj; simp⟩
      · intro k hk
        exact ⟨(offset, chunk), rfl, by simp, by simp; omega⟩
  | fail chunk err =>
    simp only [Body.bytes] at hfit
    by_cases hc : chunk = []
    · subst hc; simp [copyBody, Body.bytes]
    · have hpos := length_pos_of_ne_nil hc
      simp only [copyBody, hpos, if_true,
        WriteAt_ok file h0 hc (by omega), Body.bytes, List.mem_singleton]
      constructor
      · rintro w rfl
        exact ⟨le_refl _, hc, le_refl _, by intro j hj; simp⟩
      · intro k hk
        exact ⟨(offset, chunk), rfl, by simp, by simp; omega⟩

/-- Calls of `WriteAt` that each carry the bytes of the resource at their
place, made in any order on a file as long as the resource, leave the
resource at every offset some call covers and the old byte elsewhere. -/
theorem applyWrites_spec (origin : List Byte) (ws : List (Int × List Byte)) (file : File)
    (hlen : file.length = origin.length)
    (hgood : ∀ w ∈ ws, 0 ≤ w.1 ∧ w.2 ≠ [] ∧ w.1 + w.2.length ≤ origin.length ∧
      ∀ j : Nat, j < w.2.length → w.2[j]? = origin[w.1.toNat + j]?) :
    (applyWrites file ws).length = origin.length ∧
    (∀ i : Nat, (∃ w ∈ ws, w.1 ≤ i ∧ (i : Int) < w.1 + w.2.length) →
      (applyWrites file ws)[i]? = origin[i]?) ∧
    (∀ i : Nat, (¬ ∃ w ∈ ws, w.1 ≤ i ∧ (i : Int) < w.1 + w.2.length) →
      (applyWrites file ws)[i]? = file[i]?) := by
  induction ws generalizing file with
  | nil =>
    refine ⟨hlen, ?_, ?_⟩
    · rintro i ⟨w, hw, _⟩; cases hw
    · intro i _; rfl
  | cons w rest ih =>
    obtain ⟨off, b⟩ := w
    obtain ⟨g0, g1, g2, g3⟩ := hgood (off, b) (List.mem_cons_self _ _)
    simp only at g0 g1 g2 g3
    have hl : (writeBytes file off.toNat b).length = origin.length := by
      rw [length_writeBytes]; omega
    have hget : ∀ i : Nat, (writeBytes file off.toNat b)[i]? =
        if off ≤ i ∧ (i : Int) < off + b.length then origin[i]? else file[i]? := by
      intro i
      rw [getElem?_writeBytes]
      by_cases hi1 : i < off.toNat
      · rw [if_pos hi1, if_pos (by omega), if_neg (by omega)]
      · rw [if_neg hi1]
        by_cases hi2 : i < off.toNat + b.length
        · rw [if_pos hi2, if_pos (by omega), g3 (i - off.toNat) (by omega)]
          congr 1
          omega
        · rw [if_neg hi2, if_neg (by omega)]
    obtain ⟨ih1, ih2, ih3⟩ := ih (writeBytes file off.toNat b) hl
      (fun t ht => hgood t (List.mem_cons_of_mem _ ht))
    simp only [applyWrites, WriteAt_ok file g0 g1 (by omega)]
    refine ⟨ih1, ?_, ?_⟩
    · rintro i ⟨t, ht, hin⟩
      by_cases hrest : ∃ t ∈ rest, t.1 ≤ i ∧ (i : Int) < t.1 + t.2.length
      · exact ih2 i hrest
      · rw [ih3 i hrest, hget i]
        rcases List.mem_cons.1 ht with rfl | ht
        · rw [if_pos hin]
        · exact absurd ⟨t, ht, hin⟩ hrest
    · intro i hnot
      have hrest : ¬ ∃ t ∈ rest, t.1 ≤ i ∧ (i : Int) < t.1 + t.2.length := by
        rintro ⟨t, ht, hin⟩
        exact hnot ⟨t, List.mem_cons_of_mem _ ht, hin⟩
      rw [ih3 i hrest, hget i, if_neg]
      intro hin
      exact hnot ⟨(off, b), List.mem_cons_self _ _, hin⟩

/-- The calls of `WriteAt` made by `downloadPart` and the error it returns do
not depend on the contents of the file, so they are the same in every
interleaving of the goroutines. -/
theorem downloadPart_indep (net : Net) (file file1 : File) (start end_ : Int) (partNum : Nat)
    (hf : (file.length : Int) ≤ 2 ^ 63 - 1) (hf1 : (file1.length : Int) ≤ 2 ^ 63 - 1) :
    (downloadPart net file start end_ partNum).writes =
      (downloadPart net file1 start end_ partNum).writes ∧
    (downloadPart net file start end_ partNum).err =
      (downloadPart net file1 start end_ partNum).err := by
  unfold downloadPart
  cases net.NewRequest with
  | some err => exact ⟨rfl, rfl⟩
  | none =>
    cases net.Do (rangeHeader start end_) with
    | error err => exact ⟨rfl, rfl⟩
    | ok resp =>
      simp only
      split_ifs
      · exact ⟨rfl, rfl⟩
      · exact copyBody_indep resp.Body file file1 start hf hf1

/-- The calls of `WriteAt` of a part that receives the bytes of its range:
each carries the bytes of the resource at its place, and together they cover
the range. -/
theorem part_calls (origin : List Byte) (net : Net) (partNum : Nat) (file : File)
    (start end_ : Int) (hlen : file.length = origin.length) (h0 : 0 ≤ start) (h1 : start ≤ end_) (h2 : end_ < origin.length)
    (h3 : end_ < 2 ^ 63) (hreq : net.NewRequest = none) (resp : Response)
    (hdo : net.Do (rangeHeader start end_) = .ok resp)
    (hst : resp.StatusCode = StatusPartialContent)
    (hbytes : resp.Body.bytes = slice origin start end_) :
    (∀ w ∈ (downloadPart net file start end_ partNum).writes,
      0 ≤ w.1 ∧ w.2 ≠ [] ∧ w.1 + w.2.length ≤ origin.length ∧
      ∀ j : Nat, j < w.2.length → w.2[j]? = origin[w.1.toNat + j]?) ∧
    (∀ x : Nat, start ≤ x → (x : Int) ≤ end_ →
      ∃ w ∈ (downloadPart net file start end_ partNum).writes,
        w.1 ≤ x ∧ (x : Int) < w.1 + w.2.length) := by
  have hl : ((slice origin start end_).length : Int) = max 0 (end_ - start + 1) :=
    length_slice h0 h2
  rw [← hbytes] at hl
  rw [downloadPart_of_accepted file _ _ partNum hreq hdo (Or.inr hst)]
  obtain ⟨c1, c2⟩ := copyBody_calls resp.Body file start h0 (by omega) (by omega)
  constructor
  · intro w hw
    obtain ⟨a1, a2, a3, a4⟩ := c1 w hw
    refine ⟨by omega, a2, by omega, ?_⟩
    intro j hj
    have hidx : (((w.1 - start).toNat + j : Nat) : Int) < end_ - start + 1 := by omega
    have hsum : start.toNat + ((w.1 - start).toNat + j) = w.1.toNat + j := by omega
    rw [a4 j hj, hbytes, getElem?_slice _ hidx, hsum]
  · intro x hx0 hx1
    have hx : x - start.toNat < resp.Body.bytes.length := by omega
    obtain ⟨w, hw, b1, b2⟩ := c2 (x - start.toNat) hx
    exact ⟨w, hw, by omega, by omega⟩

/-! ## Range planning: the claims -/

/-- Claim C1. For every `size` and `count` with `size ≥ count > 0` (and `size`
an `int64`), the planned segments are ordered by index, each is non-empty, the
first starts at 0, the end of each plus one is the start of the next, the last
ends at `size - 1`, every earlier segment ends before every later one starts
(so the ranges are pairwise disjoint), and an offset lies in some segment
exactly when it lies in `[0, size - 1]`. -/
theorem plan_partition (size : Int) (count : Nat) (h0 : 0 < count)
    (h1 : (count : Int) ≤ size) (h2 : size < 2 ^ 63) :
    (plan size count).map Segment.partNum = List.range count ∧
    (∀ s ∈ plan size count, s.start ≤ s.end_) ∧
    (plan size count).head?.map Segment.start = some 0 ∧
    (∀ (i : Nat) (s t : Segment), (plan size count)[i]? = some s →
      (plan size count)[i + 1]? = some t → s.end_ + 1 = t.start) ∧
    (plan size count).getLast?.map Segment.end_ = some (size - 1) ∧
    (plan size count).Pairwise (fun s t => s.end_ < t.start) ∧
    (∀ x : Int, (∃ s ∈ plan size count, s.start ≤ x ∧ x ≤ s.end_) ↔ (0 ≤ x ∧ x ≤ size - 1)) := by
  have hp : (count : Int) < 2 ^ 63 := by omega
  have hs : (0 : Int) ≤ size := by omega
  refine ⟨?_, ?_, ?_, ?_, ?_, ?_, ?_⟩
  · unfold plan
    rw [List.map_map]
    exact List.map_id _
  · intro s hmem
    obtain ⟨i, hi, rfl⟩ := mem_plan.1 hmem
    exact segStart_le_segEnd h0 h1 h2 hi
  · rw [List.head?_eq_getElem?, plan_getElem?, if_pos h0]
    simp only [Option.map_some', segmentAt, Option.some.injEq]
    rw [segStart_eq h0 hp hs h2 h0]
    simp
  · intro i s t hsi hti
    rw [plan_getElem?] at hsi hti
    split_ifs at hsi hti with hi hi1
    simp only [Option.some.injEq] at hsi hti
    subst hsi hti
    exact segEnd_succ h0 hp hs h2 hi1
  · rw [List.getLast?_eq_getElem?, plan_length, plan_getElem?, if_pos (by omega)]
    simp only [Option.map_some', segmentAt, Option.some.injEq]
    exact segEnd_last hs h2 (by omega)
  · unfold plan
    rw [List.pairwise_map]
    refine List.Pairwise.imp_of_mem ?_ (List.pairwise_lt_range count)
    intro i j _ hj hij
    exact segEnd_lt_segStart h0 hp hs h2 hij (List.mem_range.1 hj)
  · intro x
    constructor
    · rintro ⟨s, hmem, hx0, hx1⟩
      obtain ⟨i, hi, rfl⟩ := mem_plan.1 hmem
      have hstart : segStart size count 0 ≤ segStart size count i :=
        segStart_le_of_le h0 hp hs h2 (Nat.zero_le i) hi
      rw [segStart_eq h0 hp hs h2 h0] at hstart
      have hend := segEnd_le_last h0 hp hs h2 hi
      simp only [segmentAt] at hx0 hx1
      constructor <;> simp at hstart <;> omega
    · rintro ⟨hx0, hx1⟩
      obtain ⟨i, hi, hlo, hhi⟩ := covered h0 h1 h2 x hx0 hx1
      exact ⟨segmentAt size count i, mem_plan.2 ⟨i, hi, rfl⟩, hlo, hhi⟩

/-- Claim C1, at length 1000 and four parts: the plan is
`[0-249][250-499][500-749][750-999]` and has the properties of the claim. -/
theorem plan_partition_witness :
    plan 1000 4 = [⟨0, 0, 249⟩, ⟨1, 250, 499⟩, ⟨2, 500, 749⟩, ⟨3, 750, 999⟩] ∧
    ((plan 1000 4).map Segment.partNum = List.range 4 ∧
    (∀ s ∈ plan 1000 4, s.start ≤ s.end_) ∧
    (plan 1000 4).head?.map Segment.start = some 0 ∧
    (∀ (i : Nat) (s t : Segment), (plan 1000 4)[i]? = some s →
      (plan 1000 4)[i + 1]? = some t → s.end_ + 1 = t.start) ∧
    (plan 1000 4).getLast?.map Segment.end_ = some (1000 - 1) ∧
    (plan 1000 4).Pairwise (fun s t => s.end_ < t.start) ∧
    (∀ x : Int, (∃ s ∈ plan 1000 4, s.start ≤ x ∧ x ≤ s.end_) ↔ (0 ≤ x ∧ x ≤ 1000 - 1))) :=
  ⟨by decide, plan_partition 1000 4 (by decide) (by decide) (by decide)⟩

/-- Claim C8. For every `size` and `count` with `size ≥ count > 0` and
`chunk = size / count`, every planned segment but the last has width
`chunk`, and the last has width `chunk + size mod count`. -/
theorem plan_widths (size : Int) (count : Nat) (h0 : 0 < count)
    (h1 : (count : Int) ≤ size) (h2 : size < 2 ^ 63) :
    (plan size count).length = count ∧
    ∀ (i : Nat) (s : Segment), (plan size count)[i]? = some s →
      s.width = if i + 1 = count then size / (count : Int) + size % (count : Int)
        else size / (count : Int) := by
  have hp : (count : Int) < 2 ^ 63 := by omega
  have hs : (0 : Int) ≤ size := by omega
  refine ⟨plan_length size count, ?_⟩
  intro i s hsi
  rw [plan_getElem?] at hsi
  split_ifs at hsi with hi
  simp only [Option.some.injEq] at hsi
  subst hsi
  simp only [Segment.width, segmentAt]
  rw [segStart_eq h0 hp hs h2 hi]
  by_cases hl : i + 1 = count
  · rw [if_pos hl, segEnd_last hs h2 hl]
    have hmod := Int.emod_add_ediv size (count : Int)
    have hc : (count : Int) = (i : Int) + 1 := by omega
    have hmul : (count : Int) * (size / (count : Int)) =
        (i : Int) * (size / (count : Int)) + size / (count : Int) := by
      rw [hc]; ring
    omega
  · rw [if_neg hl, segEnd_eq_of_lt h0 hp hs h2 (by omega)]
    ring

/-- Claim C8, at length 10 and four parts: the chunk is 2 and the plan is
`[0-1][2-3][4-5][6-9]`. -/
theorem plan_widths_witness :
    chunkSize 10 4 = 2 ∧
    plan 10 4 = [⟨0, 0, 1⟩, ⟨1, 2, 3⟩, ⟨2, 4, 5⟩, ⟨3, 6, 9⟩] ∧
    ((plan 10 4).length = 4 ∧
    ∀ (i : Nat) (s : Segment), (plan 10 4)[i]? = some s →
      s.width = if i + 1 = 4 then 10 / ((4 : Nat) : Int) + 10 % ((4 : Nat) : Int)
        else 10 / ((4 : Nat) : Int)) :=
  ⟨by decide, by decide, plan_widths 10 4 (by decide) (by decide) (by decide)⟩

/-- Claim C10, refuted at length 2 and four parts: the plan has four
segments, more than the two bytes of the resource, and its first three
segments are the inverted range with start 0 and end -1, requested as
`bytes=0--1`. -/
theorem plan_short_counterexample :
    plan 2 4 = [⟨0, 0, -1⟩, ⟨1, 0, -1⟩, ⟨2, 0, -1⟩, ⟨3, 0, 1⟩] ∧
    ¬ ((plan 2 4).length ≤ 2) ∧
    ¬ (∀ s ∈ plan 2 4, s.start ≤ s.end_) ∧
    (plan 2 4).map (fun s => rangeHeader s.start s.end_) =
      ["bytes=0--1", "bytes=0--1", "bytes=0--1", "bytes=0-1"] := by
  refine ⟨by decide, by decide, ?_, by decide⟩
  intro h
  exact absurd (h ⟨0, 0, -1⟩ (by decide)) (by decide)

/-- Claim C10, amended. For every `size` with `0 < size < count` the plan
still has `count` segments: every segment but the last is the inverted range
with start 0 and end -1, whose `Range` header is `bytes=0--1`, and the last
segment is `[0, size - 1]`. -/
theorem plan_short (size : Int) (count : Nat) (h0 : 0 < size) (h1 : size < (count : Int))
    (hp : (count : Int) < 2 ^ 63) :
    (plan size count).length = count ∧
    (∀ (i : Nat) (s : Segment), (plan size count)[i]? = some s →
      s = if i + 1 = count then ⟨i, 0, size - 1⟩ else ⟨i, 0, -1⟩) ∧
    rangeHeader 0 (-1) = "bytes=0--1" := by
  have hc0 : 0 < count := by omega
  have hs : (0 : Int) ≤ size := by omega
  have h2 : size < 2 ^ 63 := by omega
  have hchunk : size / (count : Int) = 0 := Int.ediv_eq_zero_of_lt hs h1
  refine ⟨plan_length size count, ?_, by decide⟩
  intro i s hsi
  rw [plan_getElem?] at hsi
  split_ifs at hsi with hi
  simp only [Option.some.injEq] at hsi
  subst hsi
  have hstart : segStart size count i = 0 := by
    rw [segStart_eq hc0 hp hs h2 hi, hchunk, mul_zero]
  by_cases hl : i + 1 = count
  · rw [if_pos hl]
    simp only [segmentAt, hstart, segEnd_last hs h2 hl]
  · rw [if_neg hl]
    simp only [segmentAt, hstart, segEnd_eq_of_lt hc0 hp hs h2 (Nat.lt_of_le_of_ne hi hl), hchunk,
      mul_zero, zero_sub]

/-- Claim C10, amended, at length 2 and four parts. -/
theorem plan_short_witness :
    (plan 2 4).length = 4 ∧
    (∀ (i : Nat) (s : Segment), (plan 2 4)[i]? = some s →
      s = if i + 1 = 4 then ⟨i, 0, 2 - 1⟩ else ⟨i, 0, -1⟩) ∧
    rangeHeader 0 (-1) = "bytes=0--1" :=
  plan_short 2 4 (by decide) (by decide) (by decide)


/-! ## The whole download -/

theorem Truncate_nil {size : Int} (h : 0 ≤ size) :
    Truncate [] size = .ok (List.replicate size.toNat 0) := by
  unfold Truncate
  rw [if_neg (by omega)]
  simp

/-- Claim C2. For every resource `origin` of length at least `count > 0`
(the length an `int64`), if the request of every planned part receives a
partial-content response whose body delivers exactly the bytes of its range,
split into reads in any way, and ends with `io.EOF`, then for every order in
which the goroutines run, starting from the file of `origin.length` zero
bytes, every `downloadPart` returns nil and the file is left equal to
`origin`; and so `main`, once the probe has returned that length and the file
has been created, leaves the file equal to `origin` and reports every part as
downloaded. The same file results when the single calls of `WriteAt` of all
the parts are made in any order whatever. -/
theorem download_complete (origin : List Byte) (count : Nat) (env : Env) (order : List Nat)
    (h0 : 0 < count) (h1 : count ≤ origin.length) (h2 : (origin.length : Int) < 2 ^ 63)
    (hsize : getFileSize env.Head = ((origin.length : Int), none))
    (hcreate : env.Create = none)
    (hnet : ∀ i, i < count → (env.net i).NewRequest = none ∧ ∃ resp,
      (env.net i).Do (rangeHeader (segStart origin.length count i)
        (segEnd origin.length count i)) = .ok resp ∧
      resp.StatusCode = StatusPartialContent ∧ resp.Body.terminal = none ∧
      resp.Body.bytes =
        slice origin (segStart origin.length count i) (segEnd origin.length count i))
    (horder : order.Perm (List.range count)) :
    runParts env.net (List.replicate origin.length 0)
        (order.map (segmentAt origin.length count)) =
      (order.map (fun i => (segmentAt origin.length count i, none)), origin) ∧
    run count env order =
      (Output.Printf "📦 File size: %d bytes\n" [.int origin.length] ::
        order.map (fun i => partReport (segmentAt origin.length count i) none) ++
        [.Println [.str "🎉 Download completed successfully!"]], some origin) ∧
    (∀ ws : List (Int × List Byte),
      ws.Perm ((order.map (fun i => (downloadPart (env.net i)
        (List.replicate origin.length 0) (segStart origin.length count i)
        (segEnd origin.length count i) i).writes)).flatten) →
      applyWrites (List.replicate origin.length 0) ws = origin) := by
  have hc : ((count : Nat) : Int) ≤ (origin.length : Int) := by exact_mod_cast h1
  have hp : (count : Int) < 2 ^ 63 := by omega
  have hs : (0 : Int) ≤ (origin.length : Int) := by omega
  have hmem : ∀ i, i ∈ order ↔ i < count := fun i => by
    rw [horder.mem_iff, List.mem_range]
  have hgood : ∀ s ∈ order.map (segmentAt origin.length count), ∀ f : File,
      f.length = origin.length →
      (downloadPart (env.net s.partNum) f s.start s.end_ s.partNum).err = none ∧
      (downloadPart (env.net s.partNum) f s.start s.end_ s.partNum).file.length =
        origin.length ∧
      ∀ i : Nat, (downloadPart (env.net s.partNum) f s.start s.end_ s.partNum).file[i]? =
        if s.start ≤ i ∧ (i : Int) ≤ s.end_ then origin[i]? else f[i]? := by
    intro s hsmem f hf
    obtain ⟨i, hi, rfl⟩ := List.mem_map.1 hsmem
    have hi : i < count := (hmem i).1 hi
    obtain ⟨hreq, resp, hdo, hst, hterm, hbytes⟩ := hnet i hi
    simp only [segmentAt]
    rw [downloadPart_of_accepted f _ _ i hreq hdo (Or.inr hst)]
    have hstart0 : 0 ≤ segStart origin.length count i := by
      rw [segStart_eq h0 hp hs h2 hi]
      exact mul_nonneg (by omega) (chunk_nonneg hs)
    have hend := segEnd_le_last h0 hp hs h2 hi
    have := copyBody_slice origin resp.Body f _ _ hf hstart0
      (segStart_le_segEnd h0 hc h2 hi) (by omega) (by omega) hbytes
    rw [hterm] at this
    exact this
  obtain ⟨r1, r2, r3, _⟩ := runParts_spec env.net origin
    (order.map (segmentAt origin.length count)) (List.replicate origin.length 0)
    (List.length_replicate _ _) hgood
  have hfile : (runParts env.net (List.replicate origin.length 0)
      (order.map (segmentAt origin.length count))).2 = origin := by
    apply List.ext_getElem?
    intro i
    by_cases hi : i < origin.length
    · apply r3
      obtain ⟨j, hj, hlo, hhi⟩ := covered h0 hc h2 (i : Int) (by omega) (by omega)
      exact ⟨segmentAt origin.length count j,
        List.mem_map.2 ⟨j, (hmem j).2 hj, rfl⟩, hlo, hhi⟩
    · rw [List.getElem?_eq_none (by omega), List.getElem?_eq_none (by omega)]
  have hparts : runParts env.net (List.replicate origin.length 0)
      (order.map (segmentAt origin.length count)) =
      (order.map (fun i => (segmentAt origin.length count i, none)), origin) := by
    apply Prod.ext
    · rw [r1, List.map_map]; rfl
    · exact hfile
  refine ⟨hparts, ?_, ?_⟩
  · unfold run
    simp only [hsize, hcreate, Truncate_nil hs, Int.toNat_ofNat, hparts, List.map_map]
    rfl
  · intro ws hperm
    have hin : ∀ w, w ∈ ws ↔ ∃ i, i < count ∧ w ∈ (downloadPart (env.net i)
        (List.replicate origin.length 0) (segStart origin.length count i)
        (segEnd origin.length count i) i).writes := by
      intro w
      rw [hperm.mem_iff, List.mem_flatten]
      constructor
      · rintro ⟨l, hl, hw⟩
        obtain ⟨i, hi, rfl⟩ := List.mem_map.1 hl
        exact ⟨i, (hmem i).1 hi, hw⟩
      · rintro ⟨i, hi, hw⟩
        exact ⟨_, List.mem_map.2 ⟨i, (hmem i).2 hi, rfl⟩, hw⟩
    have hcalls : ∀ w ∈ ws, 0 ≤ w.1 ∧ w.2 ≠ [] ∧ w.1 + w.2.length ≤ origin.length ∧
        ∀ j : Nat, j < w.2.length → w.2[j]? = origin[w.1.toNat + j]? := by
      intro w hw
      obtain ⟨i, hi, hwi⟩ := (hin w).1 hw
      obtain ⟨hreq, resp, hdo, hst, _, hbytes⟩ := hnet i hi
      have hstart0 : 0 ≤ segStart origin.length count i := by
        rw [segStart_eq h0 hp hs h2 hi]
        exact mul_nonneg (by omega) (chunk_nonneg hs)
      have hend := segEnd_le_last h0 hp hs h2 hi
      exact (part_calls origin (env.net i) i _ _ _ (List.length_replicate _ _) hstart0
        (segStart_le_segEnd h0 hc h2 hi)
        (by omega) (by omega) hreq resp hdo hst hbytes).1 w hwi
    obtain ⟨a1, a2, _⟩ := applyWrites_spec origin ws (List.replicate origin.length 0)
      (List.length_replicate _ _) hcalls
    apply List.ext_getElem?
    intro x
    by_cases hx : x < origin.length
    · apply a2
      obtain ⟨i, hi, hlo, hhi⟩ := covered h0 hc h2 (x : Int) (by omega) (by omega)
      obtain ⟨hreq, resp, hdo, hst, _, hbytes⟩ := hnet i hi
      have hstart0 : 0 ≤ segStart origin.length count i := by
        rw [segStart_eq h0 hp hs h2 hi]
        exact mul_nonneg (by omega) (chunk_nonneg hs)
      have hend := segEnd_le_last h0 hp hs h2 hi
      obtain ⟨w, hw, b1, b2⟩ :=
        (part_calls origin (env.net i) i (List.replicate origin.length 0) _ _
          (List.length_replicate _ _) hstart0
          (segStart_le_segEnd h0 hc h2 hi) (by omega) (by omega)
          hreq resp hdo hst hbytes).2 x hlo hhi
      exact ⟨w, (hin w).2 ⟨i, hi, hw⟩, b1, b2⟩
    · rw [List.getElem?_eq_none (by omega), List.getElem?_eq_none (by omega)]

/-- Claim C2, at a resource of 1000 bytes fetched in four parts whose
goroutines finish in the order 2, 0, 3, 1. -/
theorem download_complete_witness :
    resource1000.length = 1000 ∧
    (runParts env1000.net (List.replicate resource1000.length 0)
        ([2, 0, 3, 1].map (segmentAt resource1000.length 4)) =
      ([2, 0, 3, 1].map (fun i => (segmentAt resource1000.length 4 i, none)), resource1000) ∧
    run 4 env1000 [2, 0, 3, 1] =
      (Output.Printf "📦 File size: %d bytes\n" [.int resource1000.length] ::
        [2, 0, 3, 1].map (fun i => partReport (segmentAt resource1000.length 4 i) none) ++
        [.Println [.str "🎉 Download completed successfully!"]], some resource1000) ∧
    (∀ ws : List (Int × List Byte),
      ws.Perm (([2, 0, 3, 1].map (fun i => (downloadPart (env1000.net i)
        (List.replicate resource1000.length 0) (segStart resource1000.length 4 i)
        (segEnd resource1000.length 4 i) i).writes)).flatten) →
      applyWrites (List.replicate resource1000.length 0) ws = resource1000)) :=
  have hlen : resource1000.length = 1000 := by simp [resource1000]
  ⟨hlen, download_complete resource1000 4 env1000 [2, 0, 3, 1] (by decide)
    (by rw [hlen]; decide) (by rw [hlen]; decide) (by rw [hlen]; decide) rfl
    (fun i _ => ⟨rfl, _, rfl, rfl, rfl, List.take_append_drop _ _⟩) (by decide)⟩

/-! ## The final report -/

/-- Whenever `main` gets as far as launching the parts, the last thing it
prints is the report of success, whatever the parts returned. -/
theorem run_last_report (count : Nat) (env : Env) (order : List Nat) (size : Int)
    (hsize : getFileSize env.Head = (size, none)) (hcreate : env.Create = none)
    (h0 : 0 ≤ size) :
    (run count env order).1.getLast? =
      some (.Println [.str "🎉 Download completed successfully!"]) := by
  unfold run
  simp only [hsize, hcreate, Truncate_nil h0]
  rw [List.getLast?_append]
  rfl

set_option maxRecDepth 8000

/-- Claim C3, the run that contradicts it: the origin answers part 1 with
status 500, `downloadPart` returns an error for part 1 and `main` reports the
failure of part 1, leaves the range of part 1 zero, and still ends with the
report of success. -/
theorem main_reports_success_after_failure :
    (runParts envFailing.net (List.replicate 10 0) (plan 10 partCount)).1.map Prod.snd =
      [none, some (.errorString "unexpected HTTP status: 500 Internal Server Error"),
        none, none] ∧
    main envFailing [0, 1, 2, 3] =
      ([.Printf "📦 File size: %d bytes\n" [.int 10],
        .Printf "✅ Part %d downloaded [%d - %d]\n" [.int 0, .int 0, .int 1],
        .Printf "❌ Part %d failed: %v\n"
          [.int 1, .err (.errorString "unexpected HTTP status: 500 Internal Server Error")],
        .Printf "✅ Part %d downloaded [%d - %d]\n" [.int 2, .int 4, .int 5],
        .Printf "✅ Part %d downloaded [%d - %d]\n" [.int 3, .int 6, .int 9],
        .Println [.str "🎉 Download completed successfully!"]],
       some [10, 11, 0, 0, 14, 15, 16, 17, 18, 19]) := by
  constructor <;> decide

set_option maxRecDepth 512

/-! ## The size probe -/

/-- Claim C5. The function `getFileSize` returns an error exactly when the
`HEAD` request fails, or the status is not 200 OK, or the `Content-Length`
header is empty or absent, or its text is not a base-10 integer that fits in
`int64`; in every other case it returns no error and the value of that
text. -/
theorem getFileSize_spec (head : Except Err Response) :
    ((getFileSize head).2 ≠ none ↔ SizeUnavailable head) ∧
    ((getFileSize head).2 = none → ∃ resp, head = .ok resp ∧
      usableLength (resp.Header.Get "Content-Length") = some (getFileSize head).1) := by
  cases head with
  | error err => simp [getFileSize, SizeUnavailable]
  | ok resp =>
    by_cases hst : resp.StatusCode = 200
    · by_cases hempty : resp.Header.Get "Content-Length" = ""
      · simp [getFileSize, SizeUnavailable, hst, hempty, StatusOK]
      · obtain ⟨hsome, hnone⟩ := ParseInt_usable (resp.Header.Get "Content-Length")
        have hdef : getFileSize (.ok resp) = ParseInt (resp.Header.Get "Content-Length") := by
          simp [getFileSize, hst, hempty, StatusOK]
        rw [hdef]
        cases hu : usableLength (resp.Header.Get "Content-Length") with
        | none =>
          have herr := hnone hu
          refine ⟨⟨fun _ => ?_, fun _ => herr⟩, fun h => absurd h herr⟩
          simp [SizeUnavailable, hu]
        | some z =>
          rw [hsome z hu]
          refine ⟨⟨fun h => absurd rfl h, fun h => ?_⟩, fun _ => ⟨resp, rfl, hu⟩⟩
          simp [SizeUnavailable, hst, hempty, hu] at h
    · simp [getFileSize, SizeUnavailable, hst, StatusOK]


/-! ## The segment fetcher -/

/-- Claim C6. For every response whose status is neither 200 nor 206,
`downloadPart` returns the error `unexpected HTTP status` with the status of
the response, makes no call of `WriteAt` and leaves the file as it was; for
status 200 or 206 it goes on to the loop that copies the body. -/
theorem downloadPart_status (net : Net) (resp : Response) (file : File) (start end_ : Int)
    (partNum : Nat) (hreq : net.NewRequest = none)
    (hdo : net.Do (rangeHeader start end_) = .ok resp) :
    ((resp.StatusCode ≠ 200 ∧ resp.StatusCode ≠ 206) →
      (downloadPart net file start end_ partNum).err =
        some (.errorString ("unexpected HTTP status: " ++ resp.Status)) ∧
      (downloadPart net file start end_ partNum).writes = [] ∧
      (downloadPart net file start end_ partNum).file = file) ∧
    ((resp.StatusCode = 200 ∨ resp.StatusCode = 206) →
      downloadPart net file start end_ partNum = copyBody file start resp.Body) := by
  constructor
  · intro hst
    unfold downloadPart
    simp only [hreq, hdo]
    rw [if_pos ⟨hst.2, hst.1⟩]
    exact ⟨rfl, rfl, rfl⟩
  · intro hst
    exact downloadPart_of_accepted file start end_ partNum hreq hdo hst

/-- Claim C6, at a response with status 404 to the request of the range
`[2, 3]` of a file of ten zero bytes. -/
theorem downloadPart_status_witness :
    (downloadPart notFoundNet (List.replicate 10 0) 2 3 1).err =
      some (.errorString "unexpected HTTP status: 404 Not Found") ∧
    (downloadPart notFoundNet (List.replicate 10 0) 2 3 1).writes = [] ∧
    (downloadPart notFoundNet (List.replicate 10 0) 2 3 1).file = List.replicate 10 0 :=
  (downloadPart_status notFoundNet
    { StatusCode := 404, Status := "404 Not Found", Header := fun _ => [], Body := .eof [] }
    (List.replicate 10 0) 2 3 1 rfl rfl).1 (by decide)


/-- Claim C4, refuted: the origin answers the request of the range `[2, 3]` of
a file of ten zero bytes with status 200 and the whole resource of ten bytes.
`downloadPart` returns nil, calls `WriteAt` at the offsets 2 and 8 with six and
four bytes, changes the bytes at the offsets 4 to 9 and lets the file grow to
twelve bytes. -/
theorem downloadPart_full_content_counterexample :
    (downloadPart fullContentNet (List.replicate 10 0) 2 3 1).err = none ∧
    (downloadPart fullContentNet (List.replicate 10 0) 2 3 1).writes =
      [(2, [10, 11, 12, 13, 14, 15]), (8, [16, 17, 18, 19])] ∧
    (downloadPart fullContentNet (List.replicate 10 0) 2 3 1).file =
      [0, 0, 10, 11, 12, 13, 14, 15, 16, 17, 18, 19] ∧
    (List.replicate 10 (0 : Byte)).length <
      (downloadPart fullContentNet (List.replicate 10 0) 2 3 1).file.length ∧
    (downloadPart fullContentNet (List.replicate 10 0) 2 3 1).file[4]? ≠
      (List.replicate 10 (0 : Byte))[4]? := by
  refine ⟨by decide, by decide, by decide, by decide, by decide⟩

/-- Claim C4, amended. For every segment `[start, end_]` inside the file and
every response with status 200 or 206 whose body delivers at most
`end_ - start + 1` bytes, every call of `WriteAt` made by `downloadPart` lies
inside `[start, end_]`, the file keeps its length and every byte outside
`[start, end_]` is unchanged. -/
theorem downloadPart_confined (net : Net) (resp : Response) (file : File) (start end_ : Int)
    (partNum : Nat) (hreq : net.NewRequest = none)
    (hdo : net.Do (rangeHeader start end_) = .ok resp)
    (hst : resp.StatusCode = 200 ∨ resp.StatusCode = 206)
    (h0 : 0 ≤ start) (h2 : end_ < file.length) (h3 : end_ < 2 ^ 63)
    (hk : (resp.Body.bytes.length : Int) ≤ end_ - start + 1) :
    (∀ w ∈ (downloadPart net file start end_ partNum).writes,
      start ≤ w.1 ∧ w.1 + w.2.length - 1 ≤ end_) ∧
    (downloadPart net file start end_ partNum).file.length = file.length ∧
    ∀ i : Nat, ((i : Int) < start ∨ end_ < i) →
      (downloadPart net file start end_ partNum).file[i]? = file[i]? := by
  rw [downloadPart_of_accepted file start end_ partNum hreq hdo hst]
  refine ⟨?_, ?_, ?_⟩
  · intro w hw
    have := copyBody_writes resp.Body file start h0 (by omega) (by omega) w hw
    omega
  · by_cases hne : resp.Body.bytes = []
    · rw [(copyBody_of_bytes_nil file start resp.Body hne).2.1]
    · rw [(copyBody_spec resp.Body file start h0 (by omega) (by omega) hne).2, length_writeBytes]
      omega
  · intro i hi
    by_cases hne : resp.Body.bytes = []
    · rw [(copyBody_of_bytes_nil file start resp.Body hne).2.1]
    · rw [(copyBody_spec resp.Body file start h0 (by omega) (by omega) hne).2, getElem?_writeBytes]
      rcases hi with hi | hi
      · rw [if_pos (by omega), if_pos (by omega)]
      · rw [if_neg (by omega), if_neg (by omega)]

/-- Claim C4, amended, at a response with status 206 that delivers two bytes
for the range `[2, 5]` of a file of ten zero bytes. -/
theorem downloadPart_confined_witness :
    (downloadPart shortNet (List.replicate 10 0) 2 5 1).file =
      [0, 0, 12, 13, 0, 0, 0, 0, 0, 0] ∧
    ((∀ w ∈ (downloadPart shortNet (List.replicate 10 0) 2 5 1).writes,
      (2 : Int) ≤ w.1 ∧ w.1 + w.2.length - 1 ≤ 5) ∧
    (downloadPart shortNet (List.replicate 10 0) 2 5 1).file.length =
      (List.replicate 10 (0 : Byte)).length ∧
    ∀ i : Nat, ((i : Int) < 2 ∨ (5 : Int) < i) →
      (downloadPart shortNet (List.replicate 10 0) 2 5 1).file[i]? =
        (List.replicate 10 (0 : Byte))[i]?) :=
  ⟨by decide, downloadPart_confined shortNet
    { StatusCode := 206, Status := "206 Partial Content", Header := fun _ => [],
      Body := .eof [12, 13] }
    (List.replicate 10 0) 2 5 1 rfl rfl (by decide) (by decide) (by decide) (by decide)
    (by decide)⟩

/-- Claim C7. For every segment `[start, end_]` inside the file and every
accepted response whose body delivers `k ≤ end_ - start + 1` bytes, in any
chunking, and then a read error that is not `io.EOF`, `downloadPart` returns
that error; the calls of `WriteAt` carry the delivered bytes in order, each at
`start` plus the number of bytes written before it; the file keeps its length,
its bytes at the offsets `start, ..., start + k - 1` are the delivered bytes in
order, and every other byte is unchanged. -/
theorem downloadPart_read_error (net : Net) (resp : Response) (file : File)
    (start end_ : Int) (partNum : Nat) (err : Err) (hreq : net.NewRequest = none)
    (hdo : net.Do (rangeHeader start end_) = .ok resp)
    (hst : resp.StatusCode = 200 ∨ resp.StatusCode = 206)
    (hterm : resp.Body.terminal = some err)
    (h0 : 0 ≤ start) (h2 : end_ < file.length) (h3 : end_ < 2 ^ 63)
    (hk : (resp.Body.bytes.length : Int) ≤ end_ - start + 1) :
    (downloadPart net file start end_ partNum).err = some err ∧
    ((downloadPart net file start end_ partNum).writes.map Prod.snd).flatten =
      resp.Body.bytes ∧
    (∀ (n : Nat) (w : Int × List Byte),
      (downloadPart net file start end_ partNum).writes[n]? = some w →
      w.1 = start + (((downloadPart net file start end_ partNum).writes.take n).map
        (fun v => (v.2.length : Int))).sum) ∧
    (downloadPart net file start end_ partNum).file.length = file.length ∧
    (∀ j : Nat, j < resp.Body.bytes.length →
      (downloadPart net file start end_ partNum).file[start.toNat + j]? =
        resp.Body.bytes[j]?) ∧
    ∀ i : Nat, (i < start.toNat ∨ start.toNat + resp.Body.bytes.length ≤ i) →
      (downloadPart net file start end_ partNum).file[i]? = file[i]? := by
  rw [downloadPart_of_accepted file start end_ partNum hreq hdo hst]
  obtain ⟨hlog1, hlog2⟩ := copyBody_log resp.Body file start h0 (by omega) (by omega)
  refine ⟨?_, hlog1, hlog2, ?_, ?_, ?_⟩
  · by_cases hne : resp.Body.bytes = []
    · rw [(copyBody_of_bytes_nil file start resp.Body hne).1, hterm]
    · rw [(copyBody_spec resp.Body file start h0 (by omega) (by omega) hne).1, hterm]
  · by_cases hne : resp.Body.bytes = []
    · rw [(copyBody_of_bytes_nil file start resp.Body hne).2.1]
    · rw [(copyBody_spec resp.Body file start h0 (by omega) (by omega) hne).2, length_writeBytes]
      omega
  · intro j hj
    have hne : resp.Body.bytes ≠ [] := by
      intro h; rw [h] at hj; simp at hj
    rw [(copyBody_spec resp.Body file start h0 (by omega) (by omega) hne).2, getElem?_writeBytes,
      if_neg (by omega), if_pos (by omega)]
    congr 1
    omega
  · intro i hi
    by_cases hne : resp.Body.bytes = []
    · rw [(copyBody_of_bytes_nil file start resp.Body hne).2.1]
    · rw [(copyBody_spec resp.Body file start h0 (by omega) (by omega) hne).2, getElem?_writeBytes]
      rcases hi with hi | hi
      · rw [if_pos hi, if_pos (by omega)]
      · rw [if_neg (by omega), if_neg (by omega)]

/-- Claim C7, at a body that delivers two of the four bytes of the range
`[2, 5]` in two reads and then fails, over a file of ten zero bytes. -/
theorem downloadPart_read_error_witness :
    (downloadPart brokenNet (List.replicate 10 0) 2 5 1).file =
      [0, 0, 12, 13, 0, 0, 0, 0, 0, 0] ∧
    (downloadPart brokenNet (List.replicate 10 0) 2 5 1).writes = [(2, [12]), (3, [13])] ∧
    (downloadPart brokenNet (List.replicate 10 0) 2 5 1).err =
      some (.errorString "unexpected EOF") :=
  ⟨by decide, by decide,
    (downloadPart_read_error brokenNet
      { StatusCode := 206, Status := "206 Partial Content", Header := fun _ => [],
        Body := .more [12] (.fail [13] (.errorString "unexpected EOF")) }
      (List.replicate 10 0) 2 5 1 (.errorString "unexpected EOF") rfl rfl (by decide) rfl
      (by decide) (by decide) (by decide) (by decide)).1⟩

/-- Claim C9, refuted: the origin answers the request of the range `[2, 5]`,
four bytes wide, with partial content of two bytes and the end of the stream.
`downloadPart` writes two bytes and returns nil. -/
theorem downloadPart_short_body_counterexample :
    Segment.width ⟨1, 2, 5⟩ = 4 ∧
    (downloadPart shortNet (List.replicate 10 0) 2 5 1).writes = [(2, [12, 13])] ∧
    (downloadPart shortNet (List.replicate 10 0) 2 5 1).err = none := by
  refine ⟨by decide, by decide, by decide⟩

/-- Claim C9, amended. For every segment `[start, end_]` and every accepted
response whose body delivers `k` bytes that fit inside the file from `start`
on (`0 ≤ start`, `start + k` at most the length of the file, that length below
`2 ^ 63`), `downloadPart` writes all `k` bytes and returns the error that ended
the body: nil exactly when the body reached the end of the stream, whatever
`k` is. The width `end_ - start + 1` is not compared with `k`. -/
theorem downloadPart_returns_terminal (net : Net) (resp : Response) (file : File)
    (start end_ : Int) (partNum : Nat) (hreq : net.NewRequest = none)
    (hdo : net.Do (rangeHeader start end_) = .ok resp)
    (hst : resp.StatusCode = 200 ∨ resp.StatusCode = 206)
    (h0 : 0 ≤ start) (hin : start + resp.Body.bytes.length ≤ file.length)
    (hlen : (file.length : Int) < 2 ^ 63) :
    (downloadPart net file start end_ partNum).err = resp.Body.terminal ∧
    ((downloadPart net file start end_ partNum).err = none ↔ resp.Body.terminal = none) ∧
    ((downloadPart net file start end_ partNum).writes.map Prod.snd).flatten =
      resp.Body.bytes := by
  rw [downloadPart_of_accepted file start end_ partNum hreq hdo hst]
  have herr : (copyBody file start resp.Body).err = resp.Body.terminal := by
    by_cases hne : resp.Body.bytes = []
    · exact (copyBody_of_bytes_nil file start resp.Body hne).1
    · exact (copyBody_spec resp.Body file start h0 (by omega) (by omega) hne).1
  exact ⟨herr, by rw [herr],
    (copyBody_log resp.Body file start h0 (by omega) (by omega)).1⟩

/-- Claim C9, amended, at the full-content response to the request of the
range `[0, 1]` of a file of ten bytes: ten bytes are written for a width of two
and nil is returned. -/
theorem downloadPart_returns_terminal_witness :
    Segment.width ⟨0, 0, 1⟩ = 2 ∧
    ((downloadPart fullContentNet (List.replicate 10 0) 0 1 0).err = none ∧
    ((downloadPart fullContentNet (List.replicate 10 0) 0 1 0).err = none ↔
      (none : Option Err) = none) ∧
    ((downloadPart fullContentNet (List.replicate 10 0) 0 1 0).writes.map Prod.snd).flatten =
      [10, 11, 12, 13, 14, 15, 16, 17, 18, 19]) :=
  ⟨by decide, downloadPart_returns_terminal fullContentNet
    { StatusCode := 200, Status := "200 OK", Header := fun _ => [],
      Body := .more [10, 11, 12, 13, 14, 15] (.eof [16, 17, 18, 19]) }
    (List.replicate 10 0) 0 1 0 rfl rfl (by decide) (by decide) (by decide) (by decide)⟩

end Download
